import Mathlib

/-!
Shallow embedding of the finality-grandpa core:

* `src/vote_graph.rs` — the `VoteGraph` data structure (entries, heads, base)
  with its `insert` / `find_containing_nodes` / `introduce_branch` / `append`
  operations.  Rust's unbounded backward-walk loops are modelled with an
  explicit fuel parameter; running out of fuel, as well as every `panic!`
  (`unwrap`, `expect`, failed `assert!`), is modelled as `none`, so every
  operation returns `Option`.  The Rust `HashMap` of entries is modelled as an
  association list, the `HashSet` of heads as a duplicate-free list.

* `src/voter/voting_round.rs` — the pure decision logic of the voting-round
  state machine (`construct_prevote` target choice, `prevote`,
  `is_completable`, `handle_incoming_message`, and the state transitions of
  `run`).  The types `Round`, `RoundState`, the message types and the `Chain`
  trait live in files of the repository that are not part of the provided
  sources; those are modelled from the spec, as marked on each definition.
-/

namespace Grandpa

/-- Entry in the vote graph, translated from `struct Entry` in
`src/vote_graph.rs` (lines 26-34).  `ancestors` is the list of ancestor hashes
in reverse order (`ancestors[0]` is the parent, the last element is the hash of
the parent vote-node), `descendents` the list of descendent vote-nodes. -/
structure Entry (H V : Type) where
  number : Nat
  ancestors : List H
  descendents : List H
  cumulative_vote : V
  deriving DecidableEq, Repr

/-- The Rust `HashMap<H, Entry<H, V>>` modelled as an association list. -/
abbrev EntryMap (H V : Type) := List (H × Entry H V)

variable {H V : Type}

/-- Lookup in the entry map (`HashMap::get`). -/
def lookupE [DecidableEq H] : EntryMap H V → H → Option (Entry H V)
  | [], _ => none
  | (k, e) :: rest, h => if h = k then some e else lookupE rest h

/-- In-place modification of the entry stored at a key (`HashMap::get_mut`). -/
def updateE [DecidableEq H] (es : EntryMap H V) (h : H) (f : Entry H V → Entry H V) :
    EntryMap H V :=
  es.map (fun p => if p.1 = h then (p.1, f p.2) else p)

/-- `HashMap::insert`: replace the value at the key if present, else add it. -/
def insertE [DecidableEq H] (es : EntryMap H V) (h : H) (e : Entry H V) : EntryMap H V :=
  if (lookupE es h).isSome then updateE es h (fun _ => e) else es ++ [(h, e)]

/-- `Entry::in_direct_ancestry` (vote_graph.rs lines 39-44): whether the given
hash, number pair is a direct ancestor of this node; `none` signifies that the
graph must be traversed further back. -/
def Entry.in_direct_ancestry [DecidableEq H] (e : Entry H V) (hash : H) (number : Nat) :
    Option Bool :=
  if number ≥ e.number then none
  else (e.ancestors[e.number - number - 1]?).map (fun h => decide (h = hash))

/-- `Entry::ancestor_node` (vote_graph.rs lines 47-49): the hash of the parent
vote-node, i.e. the last element of `ancestors`. -/
def Entry.ancestor_node (e : Entry H V) : Option H :=
  e.ancestors.getLast?

/-- `struct VoteGraph` (vote_graph.rs lines 55-59). -/
structure VoteGraph (H V : Type) where
  entries : EntryMap H V
  heads : List H
  base : H
  deriving DecidableEq, Repr

/-- `VoteGraph::new` (vote_graph.rs lines 65-82). -/
def VoteGraph.new [DecidableEq H] [Zero V] (base_hash : H) (base_number : Nat) :
    VoteGraph H V :=
  { entries :=
      [(base_hash,
        { number := base_number, ancestors := [], descendents := [], cumulative_vote := 0 })],
    heads := [base_hash],
    base := base_hash }

/-- The inner `loop` of `VoteGraph::find_containing_nodes` (vote_graph.rs lines
126-151): walk backwards from `head` through `ancestor_node` links, skipping
nodes already `visited`, until a break condition; returns the updated visited
list together with the containing keys pushed during this walk.  `none` means
the fuel ran out (the Rust loop would keep running). -/
def fcnLoop [DecidableEq H] (es : EntryMap H V) (hash : H) (number : Nat) :
    Nat → H → List H → Option (List H × List H)
  | 0, _, _ => none
  | fuel + 1, head, visited =>
    match lookupE es head with
    | none => some (visited, [])
    | some active =>
      if head ∈ visited then some (visited, [])
      else
        match active.in_direct_ancestry hash number with
        | some true => some (head :: visited, [head])
        | some false => some (head :: visited, [])
        | none =>
          match active.ancestor_node with
          | some prev => fcnLoop es hash number fuel prev (head :: visited)
          | none => some (head :: visited, [])

/-- The `for head in self.heads` loop of `VoteGraph::find_containing_nodes`
(vote_graph.rs lines 126-152): run the backward walk from each head in turn,
threading the visited list and accumulating the containing keys. -/
def fcnFold [DecidableEq H] (es : EntryMap H V) (hash : H) (number : Nat) (fuel : Nat) :
    List H → List H × List H → Option (List H × List H)
  | [], acc => some acc
  | head :: rest, acc =>
    match fcnLoop es hash number fuel head acc.1 with
    | none => none
    | some r => fcnFold es hash number fuel rest (r.1, acc.2 ++ r.2)

/-- `VoteGraph::find_containing_nodes` (vote_graph.rs lines 116-155).  The
outer `Option` is the fuel/divergence channel; the inner `Option` is Rust's
return value (`none` when an entry with this key already exists, otherwise the
list of vote-nodes with the given block in their ancestor-edge). -/
def VoteGraph.find_containing_nodes [DecidableEq H] (g : VoteGraph H V) (hash : H)
    (number : Nat) : Option (Option (List H)) :=
  if (lookupE g.entries hash).isSome then some none
  else
    (fcnFold g.entries hash number (g.entries.length + 1) g.heads ([], [])).map
      (fun acc => some acc.2)

/-- The `descendents.into_iter().fold(None, …)` of `VoteGraph::introduce_branch`
(vote_graph.rs lines 165-193): for each descendant, split its ancestor list at
the offset to the new ancestor and accumulate the new entry (created from the
first descendant's tail). -/
def ibFold [DecidableEq H] [Zero V] [Add V] (ancestor_number : Nat) :
    List H → EntryMap H V × Option (Entry H V) →
    Option (EntryMap H V × Option (Entry H V))
  | [], acc => some acc
  | descendent :: rest, acc =>
    match lookupE acc.1 descendent with
    | none => none
    | some entry =>
      if ancestor_number ≤ entry.number then
        let offset := entry.number - ancestor_number
        let newEntry := acc.2.getD
          { number := ancestor_number, ancestors := entry.ancestors.drop offset,
            descendents := [], cumulative_vote := 0 }
        let newEntry := { newEntry with
          descendents := newEntry.descendents ++ [descendent],
          cumulative_vote := newEntry.cumulative_vote + entry.cumulative_vote }
        ibFold ancestor_number rest
          (updateE acc.1 descendent (fun e => { e with ancestors := e.ancestors.take offset }),
           some newEntry)
      else none

/-- `VoteGraph::introduce_branch` (vote_graph.rs lines 164-201): split the
ancestor-edges of the given `descendents` at `(ancestor_hash, ancestor_number)`
and create one new vote-node there inheriting the descendants' cumulative
votes.  `none` models the panics (`expect` on a missing key, `checked_sub`
failure, failed `assert!` on a pre-existing entry). -/
def VoteGraph.introduce_branch [DecidableEq H] [Zero V] [Add V] (g : VoteGraph H V)
    (descendents : List H) (ancestor_hash : H) (ancestor_number : Nat) :
    Option (VoteGraph H V) := do
  let folded ← ibFold ancestor_number descendents (g.entries, none)
  match folded.2 with
  | some newEntry =>
    if (lookupE folded.1 ancestor_hash).isSome then none
    else some { g with entries := insertE folded.1 ancestor_hash newEntry }
  | none => some { g with entries := folded.1 }

/-- `VoteGraph::append` (vote_graph.rs lines 205-233): append a vote-node onto
the chain-tree.  The chain oracle is a function `base → block → Option
ancestry` (the `Chain` trait of the repository, whose `lib.rs` is not in the
provided sources; per the spec the ancestry starts with `block`'s parent and
ends with `base` inclusive, and `none` stands for an unknown block or a
non-descendant).  The `unwrap` of the oracle result and the `expect` on the
ancestor search are modelled as `none` (panic). -/
def VoteGraph.append [DecidableEq H] [Zero V] (g : VoteGraph H V) (hash : H) (number : Nat)
    (ancestryFn : H → H → Option (List H)) : Option (VoteGraph H V) := do
  let ancestry ← ancestryFn g.base hash
  let i ← ancestry.findIdx? (fun a => (lookupE g.entries a).isSome)
  let ancestor_hash ← ancestry[i]?
  let es := updateE g.entries ancestor_hash
    (fun e => { e with descendents := e.descendents ++ [hash] })
  let es := insertE es hash
    { number := number, ancestors := ancestry.take (i + 1), descendents := [],
      cumulative_vote := 0 }
  let hs := g.heads.erase ancestor_hash
  let hs := if hash ∈ hs then hs else hash :: hs
  some { g with entries := es, heads := hs }

/-- The weight-accumulation loop of `VoteGraph::insert` (vote_graph.rs lines
97-108): walk from `h` up through `ancestor_node` links adding `vote` to each
entry's `cumulative_vote`.  `none` models the `expect` on a missing entry or
fuel running out. -/
def cumWalk [DecidableEq H] [Add V] : Nat → EntryMap H V → H → V → Option (EntryMap H V)
  | 0, _, _, _ => none
  | fuel + 1, es, h, vote =>
    match lookupE es h with
    | none => none
    | some e =>
      let es2 := updateE es h
        (fun e0 => { e0 with cumulative_vote := e0.cumulative_vote + vote })
      match e.ancestor_node with
      | some parent => cumWalk fuel es2 parent vote
      | none => some es2

/-- `VoteGraph::insert` (vote_graph.rs lines 85-109). -/
def VoteGraph.insert [DecidableEq H] [Zero V] [Add V] (g : VoteGraph H V) (hash : H)
    (number : Nat) (vote : V) (ancestryFn : H → H → Option (List H)) :
    Option (VoteGraph H V) := do
  let g1 ←
    match g.find_containing_nodes hash number with
    | none => none
    | some none => some g
    | some (some containing) =>
      if containing.isEmpty then g.append hash number ancestryFn
      else g.introduce_branch containing hash number
  let es ← cumWalk (g1.entries.length + 1) g1.entries hash vote
  some { g1 with entries := es }

/-- A sequence of `VoteGraph::insert` calls, propagating the panic/divergence
channel. -/
def insertSeq [DecidableEq H] [Zero V] [Add V] (ancestryFn : H → H → Option (List H)) :
    List (H × Nat × V) → VoteGraph H V → Option (VoteGraph H V)
  | [], g => some g
  | v :: rest, g => (g.insert v.1 v.2.1 v.2.2 ancestryFn).bind (insertSeq ancestryFn rest)

/-! ### A block chain

A coherent block tree, used to instantiate the chain oracle for the claims that
quantify over chains: every block has a list of strict ancestors (parent
first) and a block number, consecutive ancestors agree, and numbers step by
one along parenthood (as in the `DummyChain` of the vote_graph.rs tests). -/

/-- A coherent chain of blocks.  `anc h` is the list of strict ancestors of
`h`, parent first; `num h` is the block number of `h`. -/
structure Chain (H : Type) where
  anc : H → List H
  num : H → Nat
  coh : ∀ h p, (anc h).head? = some p → anc p = (anc h).tail
  numStep : ∀ h p, (anc h).head? = some p → num h = num p + 1

/-- The chain oracle derived from a `Chain`: the ancestry from `base` to `h`,
starting at `h`'s parent and ending at `base` inclusive, or `none` when `h` is
not a strict descendant of `base` (unknown block / not-descendent), exactly as
the `DummyChain` test oracle of vote_graph.rs behaves. -/
def Chain.ancestry [DecidableEq H] (c : Chain H) (base h : H) : Option (List H) :=
  if base ∈ c.anc h then some ((c.anc h).take ((c.anc h).indexOf base + 1)) else none

/-- Whether `x` lies on the chain of `h`, i.e. `x` is `h` itself or a strict
ancestor of `h`. -/
def chainContains [DecidableEq H] (c : Chain H) (h x : H) : Bool :=
  decide (x = h) || decide (x ∈ c.anc h)

/-- The monoid-sum of the weights of all votes in `votes` that were cast on a
block whose chain contains `x`. -/
def voteSum [DecidableEq H] [Add V] [Zero V] (c : Chain H) (votes : List (H × Nat × V))
    (x : H) : V :=
  ((votes.filter (fun v => chainContains c v.1 x)).map (fun v => v.2.2)).sum

/-! ### Invariant predicates for the vote graph -/

/-- `h` has an entry in the map. -/
def isKey [DecidableEq H] (es : EntryMap H V) (h : H) : Prop :=
  (lookupE es h).isSome = true

/-- The ancestor vote-node of the entry at `h`, if any. -/
def ancNodeOf [DecidableEq H] (es : EntryMap H V) (h : H) : Option H :=
  (lookupE es h).bind (fun e => e.ancestor_node)

/-- One step along the ancestor-node links. -/
def stepTo [DecidableEq H] (es : EntryMap H V) (x y : H) : Prop :=
  ancNodeOf es x = some y

/-- `Reaches es x y`: walking ancestor-node links from `x` eventually reaches
`y` (reflexively). -/
def Reaches [DecidableEq H] (es : EntryMap H V) : H → H → Prop :=
  Relation.ReflTransGen (stepTo es)

/-- The cumulative vote recorded at a key (zero when the key is absent). -/
def cumOf [DecidableEq H] [Zero V] (es : EntryMap H V) (d : H) : V :=
  ((lookupE es d).map Entry.cumulative_vote).getD 0

/-- The structural part of an entry: everything except the cumulative vote. -/
def Entry.shape (e : Entry H V) : Nat × List H × List H :=
  (e.number, e.ancestors, e.descendents)

/-- Two entry maps have the same keys and structurally equal entries (they may
differ only in cumulative votes). -/
def ShapeEq [DecidableEq H] (es es2 : EntryMap H V) : Prop :=
  ∀ k, (lookupE es k).map Entry.shape = (lookupE es2 k).map Entry.shape

/-- Heads invariant of a vote graph: `heads` is duplicate-free, a subset of the
entry keys, and a hash is a head exactly when its entry has no descendents. -/
structure HInv [DecidableEq H] (g : VoteGraph H V) : Prop where
  heads_nodup : g.heads.Nodup
  heads_sub : ∀ h ∈ g.heads, (lookupE g.entries h).isSome = true
  heads_iff : ∀ h, h ∈ g.heads ↔ ∃ e, lookupE g.entries h = some e ∧ e.descendents = []

/-- Structural well-formedness of a vote graph over a chain `c` with base `b`:
the base has the unique empty ancestor-edge; every other entry's edge is an
initial segment of its block's real ancestor chain, ending at another
vote-node and containing no vote-node in its interior; every entry is
backward-reachable from some head. -/
structure GInv [DecidableEq H] (c : Chain H) (b : H) (g : VoteGraph H V) : Prop where
  base_eq : g.base = b
  keys_nodup : (g.entries.map Prod.fst).Nodup
  base_entry : ∃ e, lookupE g.entries b = some e ∧ e.ancestors = [] ∧ e.number = c.num b
  wf : ∀ h e, lookupE g.entries h = some e → h ≠ b →
    e.number = c.num h ∧
    e.ancestors ≠ [] ∧
    e.ancestors = (c.anc h).take e.ancestors.length ∧
    (∀ a, e.ancestors.getLast? = some a → (lookupE g.entries a).isSome = true) ∧
    (∀ x ∈ e.ancestors.dropLast, lookupE g.entries x = none)
  heads_nodup : g.heads.Nodup
  heads_sub : ∀ h ∈ g.heads, (lookupE g.entries h).isSome = true
  reach : ∀ h, (lookupE g.entries h).isSome = true → ∃ hd ∈ g.heads, Reaches g.entries hd h

/-- The full induction invariant for the cumulative-vote theorem: the graph is
structurally well-formed over the chain, every previously inserted hash is
tracked, and every entry's cumulative vote is the sum of the weights of the
votes whose chain contains its block. -/
def GoodGraph [DecidableEq H] [Zero V] [Add V] (c : Chain H) (b : H)
    (votes : List (H × Nat × V)) (g : VoteGraph H V) : Prop :=
  GInv c b g ∧
  (∀ v ∈ votes, (lookupE g.entries v.1).isSome = true) ∧
  (∀ k e, lookupE g.entries k = some e → e.cumulative_vote = voteSum c votes k)

/-! ### Voting round (`src/voter/voting_round.rs`) -/

/-- `enum Voting` (voting_round.rs lines 47-55): whether we should vote in the
current round. -/
inductive Voting
  | no
  | yes
  | primary
  deriving DecidableEq, Repr

/-- `Voting::is_active` (voting_round.rs lines 59-61). -/
def Voting.is_active : Voting → Bool
  | .no => false
  | .yes => true
  | .primary => true

/-- `Voting::is_primary` (voting_round.rs lines 64-66). -/
def Voting.is_primary : Voting → Bool
  | .primary => true
  | _ => false

/-- Modelled from the spec: the `Prevote` message payload (`lib.rs` is not in
the provided sources; spec section 6 gives the wire format
`Prevote{target_hash, target_number}`). -/
structure Prevote (H : Type) where
  target_hash : H
  target_number : Nat
  deriving DecidableEq, Repr

/-- Modelled from the spec: the `Precommit` message payload (wire format of
spec section 6). -/
structure Precommit (H : Type) where
  target_hash : H
  target_number : Nat
  deriving DecidableEq, Repr

/-- Modelled from the spec: the `PrimaryPropose` message payload (wire format
of spec section 6). -/
structure PrimaryPropose (H : Type) where
  target_hash : H
  target_number : Nat
  deriving DecidableEq, Repr

/-- Modelled from the spec: the `Message` enum of the wire format (spec
section 6). -/
inductive Message (H : Type)
  | prevote (p : Prevote H)
  | precommit (p : Precommit H)
  | primary_propose (p : PrimaryPropose H)
  deriving DecidableEq, Repr

/-- Modelled from the spec: `Message::target`, the block reference a message
votes for. -/
def Message.target : Message H → H × Nat
  | .prevote p => (p.target_hash, p.target_number)
  | .precommit p => (p.target_hash, p.target_number)
  | .primary_propose p => (p.target_hash, p.target_number)

/-- Modelled from the spec: `SignedMessage` (spec section 6:
`{ message, signature, voter_id }`). -/
structure SignedMessage (H Sig Id : Type) where
  message : Message H
  signature : Sig
  id : Id

/-- `VotingRound::handle_incoming_message` (voting_round.rs lines 137-189),
with the embedded `Round` abstracted: `round` is the round state of abstract
type `R`, and `import_prevote` / `import_precommit` are the (fallible,
state-transforming) import operations of `Round`, which lives in a file of the
repository not among the provided sources.  The result is the new
`(round, primary_block)` pair or a propagated error.  The equivocation payload
of the import result is ignored, as in the source (the handling is a `TODO`
there). -/
def handle_incoming_message {R E Sig Id : Type} [DecidableEq H] [DecidableEq Id]
    (is_equal_or_descendent_of : H → H → Bool)
    (import_prevote : R → Prevote H → Id → Sig → Except E R)
    (import_precommit : R → Precommit H → Id → Sig → Except E R)
    (primary_voter : Id) (base : H × Nat) (round : R) (primary_block : Option (H × Nat))
    (msg : SignedMessage H Sig Id) : Except E (R × Option (H × Nat)) :=
  if !(is_equal_or_descendent_of base.1 msg.message.target.1) then
    .ok (round, primary_block)
  else
    match msg.message with
    | .prevote p =>
      (import_prevote round p msg.id msg.signature).map (fun r => (r, primary_block))
    | .precommit p =>
      (import_precommit round p msg.id msg.signature).map (fun r => (r, primary_block))
    | .primary_propose p =>
      if msg.id = primary_voter then .ok (round, some (p.target_hash, p.target_number))
      else .ok (round, primary_block)

/-- The target-block choice of `VotingRound::construct_prevote`
(voting_round.rs lines 265-330), as a pure function of the primary-block hint,
the previous round's estimate and prevote-GHOST, and the result of the
environment's `ancestry(estimate.hash, ghost.hash)` call (`none` standing for
the `NotDescendent` error, the only `Error` variant this match handles). -/
def find_descendent_of [DecidableEq H] (ancestryRes : Option (List H))
    (primary_block : Option (H × Nat))
    (previous_round_estimate previous_prevote_ghost : H × Nat) : H :=
  match primary_block with
  | none => previous_round_estimate.1
  | some pb =>
    if pb = previous_prevote_ghost then pb.1
    else if pb.2 ≥ previous_prevote_ghost.2 then previous_round_estimate.1
    else
      match ancestryRes with
      | some ancestry =>
        let to_sub := pb.2 + 1
        let offset := if previous_prevote_ghost.2 < to_sub then 0
                      else previous_prevote_ghost.2 - to_sub
        match ancestry[offset]? with
        | some h => if h = pb.1 then pb.1 else previous_round_estimate.1
        | none => previous_round_estimate.1
      | none => previous_round_estimate.1

/-- Modelled from the spec: the prevote target choice as the spec states it
(spec section 4.3, steps 2-5, and claim C3): if `primary_block` is absent,
`E.hash`; else if `primary_block = G`, the primary block; else if
`primary_block.number ≥ G.number`, `E.hash`; else, with
`offset = G.number − (primary_block.number + 1)` saturating to 0, the primary
block if the `offset`-th ancestry element equals its hash and `E.hash`
otherwise, falling back to `E.hash` when the ancestry lookup fails with
`NotDescendent`. -/
def prevote_target_spec [DecidableEq H] (ancestryRes : Option (List H))
    (primary_block : Option (H × Nat)) (E G : H × Nat) : H :=
  match primary_block with
  | none => E.1
  | some pb =>
    if pb = G then pb.1
    else if pb.2 ≥ G.2 then E.1
    else
      match ancestryRes with
      | some ancestry =>
        if ancestry[G.2 - (pb.2 + 1)]? = some pb.1 then pb.1 else E.1
      | none => E.1

/-- Modelled from the spec: the `RoundState` snapshot type of `round.rs`
(not among the provided sources); fields per spec sections 3 and 4.2: the
derived observables `prevote_ghost`, `estimate`, `finalized`, `completable`. -/
structure RoundState (H : Type) where
  prevote_ghost : Option (H × Nat)
  estimate : Option (H × Nat)
  finalized : Option (H × Nat)
  completable : Bool
  deriving DecidableEq, Repr

/-- `VotingRound::is_completable` (voting_round.rs lines 399-425), as a pure
function of the current round's `completable()` and `finalized()` observables
and the cached previous-round state. -/
def is_completable (current_completable : Bool) (current_finalized : Option (H × Nat))
    (previous_round_state : RoundState H) : Bool :=
  if !current_completable || current_finalized.isNone then false
  else
    match previous_round_state.estimate, previous_round_state.finalized with
    | some pe, some pf =>
      decide (pe.2 ≤ pf.2) ||
        (match current_finalized with
         | some cf => decide (pe.2 ≤ cf.2)
         | none => false)
    | _, _ => false

/-- `VotingRound::prevote` (voting_round.rs lines 238-262), as a pure function
of the voting capability, the timer/completable gate, the result of
`construct_prevote` (an error, a prevote, or `none` when
`best_chain_containing` found no block) and the result the outgoing sink would
give.  Returns the bool the method returns, the new voting capability, and the
message pushed to the sink, if any. -/
def prevote_step {E : Type} (voting : Voting) (prevote_timer_ready completable : Bool)
    (construct_res : Except E (Option (Prevote H))) (send_res : Except E Unit) :
    Except E (Bool × Voting × Option (Prevote H)) :=
  if prevote_timer_ready || completable then
    if voting.is_active then
      match construct_res with
      | .error e => .error e
      | .ok (some pv) =>
        match send_res with
        | .error e => .error e
        | .ok _ => .ok (true, voting, some pv)
      | .ok none => .ok (true, Voting.no, none)
    else .ok (true, voting, none)
  else .ok (false, voting, none)

/-- `enum State` of the voting round (voting_round.rs lines 30-44). -/
inductive VRState (T : Type)
  | start (prevote_timer precommit_timer : T)
  | proposed (prevote_timer precommit_timer : T)
  | prevoted (precommit_timer : T)
  | precommitted
  | poisoned
  deriving DecidableEq, Repr

/-- The state transition taken by `VotingRound::run` in the `Start` arm after
`prevote` returned (voting_round.rs lines 461-474). -/
def start_transition {T : Type} (prevote_timer precommit_timer : T)
    (proposed prevoted : Bool) : VRState T :=
  if prevoted then .prevoted precommit_timer
  else if proposed then .proposed prevote_timer precommit_timer
  else .start prevote_timer precommit_timer

/-- The state transition taken by `VotingRound::run` in the `Proposed` arm
after `prevote` returned (voting_round.rs lines 475-484). -/
def proposed_transition {T : Type} (prevote_timer precommit_timer : T)
    (prevoted : Bool) : VRState T :=
  if prevoted then .prevoted precommit_timer
  else .proposed prevote_timer precommit_timer

/-! ### Concrete chain used for witnesses and counterexamples

The block tree of the vote_graph.rs tests:
`genesis(1) → A(2) → B(3) → C(4) → D1(5) → E1(6) → F1(7)` and the sibling
branch `C → D2(5) → E2(6) → F2(7)`, with hashes coded as `Fin 10`:
0 = genesis, 1 = A, 2 = B, 3 = C, 4 = D1, 5 = E1, 6 = F1, 7 = D2, 8 = E2,
9 = F2. -/

/-- Ancestor lists of the test block tree. -/
def testAnc (h : Fin 10) : List (Fin 10) :=
  match h.val with
  | 0 => []
  | 1 => [0]
  | 2 => [1, 0]
  | 3 => [2, 1, 0]
  | 4 => [3, 2, 1, 0]
  | 5 => [4, 3, 2, 1, 0]
  | 6 => [5, 4, 3, 2, 1, 0]
  | 7 => [3, 2, 1, 0]
  | 8 => [7, 3, 2, 1, 0]
  | _ => [8, 7, 3, 2, 1, 0]

/-- Block numbers of the test block tree. -/
def testNum (h : Fin 10) : Nat :=
  match h.val with
  | 0 => 1
  | 1 => 2
  | 2 => 3
  | 3 => 4
  | 4 => 5
  | 5 => 6
  | 6 => 7
  | 7 => 5
  | 8 => 6
  | _ => 7

/-- The test block tree as a coherent chain. -/
def testChain : Chain (Fin 10) :=
  { anc := testAnc
    num := testNum
    coh := by decide
    numStep := by decide }

/-- The vote sequence of test scenario 3 of vote_graph.rs (`graph_fork_at_node`,
second tracker): votes of weight 100 on E1, F2, then C, forcing
`introduce_branch` at C. -/
def branchVotes : List (Fin 10 × Nat × Nat) := [(5, 6, 100), (9, 7, 100), (3, 4, 100)]

/-- The graph built by the scenario-3 vote sequence. -/
def branchGraph : Option (VoteGraph (Fin 10) Nat) :=
  insertSeq testChain.ancestry branchVotes (VoteGraph.new 0 1)

/-- The vote sequence of test scenario 1 of vote_graph.rs
(`graph_fork_not_at_node`): votes of weight 100 on A, E1 and F2. -/
def forkVotes : List (Fin 10 × Nat × Nat) := [(1, 2, 100), (5, 6, 100), (9, 7, 100)]

/-- The graph built by the scenario-1 vote sequence. -/
def forkGraph : Option (VoteGraph (Fin 10) Nat) :=
  insertSeq testChain.ancestry forkVotes (VoteGraph.new 0 1)

/-- The scenario-2 order of the same vote multiset as `branchVotes`:
C first, then E1 and F2. -/
def forkAtNodeVotes : List (Fin 10 × Nat × Nat) := [(3, 4, 100), (5, 6, 100), (9, 7, 100)]

/-- The graph built by the scenario-2 vote sequence. -/
def forkAtNodeGraph : Option (VoteGraph (Fin 10) Nat) :=
  insertSeq testChain.ancestry forkAtNodeVotes (VoteGraph.new 0 1)

/-! # Theorems -/

/-! ## Entry-map laws -/

theorem lookupE_cons [DecidableEq H] (a : H) (e : Entry H V) (rest : EntryMap H V) (k : H) :
    lookupE ((a, e) :: rest) k = if k = a then some e else lookupE rest k := rfl

theorem updateE_cons [DecidableEq H] (a : H) (e : Entry H V) (rest : EntryMap H V) (h : H)
    (f : Entry H V → Entry H V) :
    updateE ((a, e) :: rest) h f =
      (if a = h then (a, f e) else (a, e)) :: updateE rest h f := by
  unfold updateE
  by_cases hah : a = h <;> simp [hah]

theorem lookupE_updateE [DecidableEq H] (es : EntryMap H V) (h : H)
    (f : Entry H V → Entry H V) (k : H) :
    lookupE (updateE es h f) k = if k = h then (lookupE es h).map f else lookupE es k := by
  induction es with
  | nil => simp [lookupE, updateE]
  | cons p rest ih =>
    obtain ⟨a, e⟩ := p
    rw [updateE_cons]
    by_cases hah : a = h
    · rw [if_pos hah]
      subst hah
      by_cases hka : k = a
      · subst hka
        simp [lookupE_cons]
      · simp [lookupE_cons, hka, ih]
    · rw [if_neg hah]
      by_cases hka : k = a
      · subst hka
        simp [lookupE_cons, hah]
      · by_cases hkh : k = h
        · subst hkh
          simp [lookupE_cons, hka, Ne.symm hah, ih]
        · simp [lookupE_cons, hka, hkh, ih]

theorem lookupE_append_some [DecidableEq H] {es1 : EntryMap H V} {k : H} {e : Entry H V}
    (hs : lookupE es1 k = some e) (es2 : EntryMap H V) :
    lookupE (es1 ++ es2) k = some e := by
  induction es1 with
  | nil => simp [lookupE] at hs
  | cons p rest ih =>
    by_cases hk : k = p.1
    · obtain ⟨a, e1⟩ := p
      simp_all [lookupE]
    · obtain ⟨a, e1⟩ := p
      simp only [lookupE, if_neg hk] at hs
      simpa [lookupE, hk] using ih hs

theorem lookupE_append_none [DecidableEq H] {es1 : EntryMap H V} {k : H}
    (hs : lookupE es1 k = none) (es2 : EntryMap H V) :
    lookupE (es1 ++ es2) k = lookupE es2 k := by
  induction es1 with
  | nil => simp [lookupE]
  | cons p rest ih =>
    obtain ⟨a, e1⟩ := p
    by_cases hk : k = a
    · simp [lookupE, hk] at hs
    · simp only [lookupE, if_neg hk] at hs
      simpa [lookupE, hk] using ih hs

theorem lookupE_insertE_fresh [DecidableEq H] {es : EntryMap H V} {h : H}
    (hf : lookupE es h = none) (e : Entry H V) (k : H) :
    lookupE (insertE es h e) k = if k = h then some e else lookupE es k := by
  unfold insertE
  rw [hf]
  simp only [Option.isSome_none, Bool.false_eq_true, if_false]
  by_cases hk : k = h
  · subst hk
    rw [lookupE_append_none hf]
    simp [lookupE]
  · rw [if_neg hk]
    cases hs : lookupE es k with
    | some e2 => exact lookupE_append_some hs _
    | none =>
      rw [lookupE_append_none hs]
      simp [lookupE, hk]

theorem isKey_iff_mem_keys [DecidableEq H] (es : EntryMap H V) (k : H) :
    (lookupE es k).isSome = true ↔ k ∈ es.map Prod.fst := by
  induction es with
  | nil => simp [lookupE]
  | cons p rest ih =>
    obtain ⟨a, e⟩ := p
    by_cases hk : k = a
    · simp [lookupE, hk]
    · simpa [lookupE, hk] using ih

theorem keys_updateE [DecidableEq H] (es : EntryMap H V) (h : H)
    (f : Entry H V → Entry H V) :
    (updateE es h f).map Prod.fst = es.map Prod.fst := by
  induction es with
  | nil => rfl
  | cons p rest ih =>
    obtain ⟨a, e⟩ := p
    by_cases hah : a = h <;> simp [updateE, hah] <;> simpa [updateE] using ih

theorem keys_insertE_fresh [DecidableEq H] {es : EntryMap H V} {h : H}
    (hf : lookupE es h = none) (e : Entry H V) :
    (insertE es h e).map Prod.fst = es.map Prod.fst ++ [h] := by
  unfold insertE
  rw [hf]
  simp

/-! ## Shape preservation -/

theorem ShapeEq.refl [DecidableEq H] (es : EntryMap H V) : ShapeEq es es :=
  fun _ => rfl

theorem ShapeEq.trans [DecidableEq H] {es1 es2 es3 : EntryMap H V}
    (h1 : ShapeEq es1 es2) (h2 : ShapeEq es2 es3) : ShapeEq es1 es3 :=
  fun k => (h1 k).trans (h2 k)

theorem ShapeEq.isSome [DecidableEq H] {es1 es2 : EntryMap H V} (h : ShapeEq es1 es2)
    (k : H) : (lookupE es1 k).isSome = (lookupE es2 k).isSome := by
  have := h k
  cases h1 : lookupE es1 k <;> cases h2 : lookupE es2 k <;> simp_all

theorem ShapeEq.entry [DecidableEq H] {es1 es2 : EntryMap H V} (h : ShapeEq es1 es2)
    {k : H} {e : Entry H V} (he : lookupE es1 k = some e) :
    ∃ e2, lookupE es2 k = some e2 ∧ e2.number = e.number ∧ e2.ancestors = e.ancestors ∧
      e2.descendents = e.descendents := by
  have hk := h k
  rw [he] at hk
  cases h2 : lookupE es2 k with
  | none => rw [h2] at hk; simp at hk
  | some e2 =>
    rw [h2] at hk
    simp only [Option.map_some', Option.some_inj] at hk
    have hfields : e.number = e2.number ∧ e.ancestors = e2.ancestors ∧
        e.descendents = e2.descendents := by
      simpa [Entry.shape, Prod.ext_iff] using hk
    exact ⟨e2, rfl, hfields.1.symm, hfields.2.1.symm, hfields.2.2.symm⟩

theorem shapeEq_updateE_cum [DecidableEq H] (es : EntryMap H V) (h : H) (g : V → V) :
    ShapeEq es (updateE es h (fun e => { e with cumulative_vote := g e.cumulative_vote })) := by
  intro k
  rw [lookupE_updateE]
  by_cases hk : k = h
  · subst hk
    cases hs : lookupE es k <;> simp [Entry.shape]
  · simp [hk]

theorem cumWalk_shape [DecidableEq H] [Add V] :
    ∀ (fuel : Nat) (es : EntryMap H V) (h : H) (v : V) (es2 : EntryMap H V),
      cumWalk fuel es h v = some es2 → ShapeEq es es2 := by
  intro fuel
  induction fuel with
  | zero => intro es h v es2 hw; simp [cumWalk] at hw
  | succ n ih =>
    intro es h v es2 hw
    unfold cumWalk at hw
    cases he : lookupE es h with
    | none => rw [he] at hw; simp at hw
    | some e =>
      rw [he] at hw
      simp only at hw
      have hstep : ShapeEq es
          (updateE es h (fun e0 => { e0 with cumulative_vote := e0.cumulative_vote + v })) :=
        shapeEq_updateE_cum es h (fun x => x + v)
      cases ha : e.ancestor_node with
      | some parent =>
        rw [ha] at hw
        exact hstep.trans (ih _ _ _ _ hw)
      | none =>
        rw [ha] at hw
        simp only [Option.some_inj] at hw
        rw [← hw]
        exact hstep

/-! ## The backward search of `find_containing_nodes` -/

/-- Full characterisation of one head-walk of `find_containing_nodes`,
conditioned on the walk terminating within its fuel: the visited list grows
monotonically by entry keys; the output collects exactly the newly visited
nodes whose direct ancestry contains the target; and (when every
ancestor-node link lands on a key) the newly visited set is closed under
following the ancestor-node link out of nodes whose `in_direct_ancestry`
answered `none`. -/
theorem fcnLoop_spec [DecidableEq H] (es : EntryMap H V) (hash : H) (number : Nat) :
    ∀ (fuel : Nat) (head : H) (visited v2 out : List H),
      fcnLoop es hash number fuel head visited = some (v2, out) →
      (∀ x ∈ visited, x ∈ v2) ∧
      (∀ x ∈ v2, x ∈ visited ∨ (lookupE es x).isSome = true) ∧
      (visited.Nodup → v2.Nodup) ∧
      ((lookupE es head).isSome = true → head ∈ v2) ∧
      (∀ k, k ∈ out ↔ k ∈ v2 ∧ k ∉ visited ∧
        ∃ e, lookupE es k = some e ∧ e.in_direct_ancestry hash number = some true) ∧
      out.Nodup ∧
      ((∀ x ex p, lookupE es x = some ex → ex.ancestor_node = some p →
          (lookupE es p).isSome = true) →
        ∀ x ∈ v2, x ∉ visited → ∀ ex, lookupE es x = some ex →
          ex.in_direct_ancestry hash number = none →
          ∀ p, ex.ancestor_node = some p → p ∈ v2) := by
  intro fuel
  induction fuel with
  | zero =>
    intro head visited v2 out hrun
    simp [fcnLoop] at hrun
  | succ n ih =>
    intro head visited v2 out hrun
    unfold fcnLoop at hrun
    split at hrun
    next hhead =>
      simp only [Option.some_inj, Prod.mk.injEq] at hrun
      obtain ⟨rfl, rfl⟩ := hrun
      refine ⟨fun x hx => hx, fun x hx => Or.inl hx, fun hn => hn, ?_, ?_, List.nodup_nil, ?_⟩
      · intro hk
        rw [hhead] at hk
        simp at hk
      · intro k
        simp only [List.not_mem_nil, false_iff]
        rintro ⟨hk1, hk2, -⟩
        exact hk2 hk1
      · intro _ x hx hnx
        exact absurd hx hnx
    next active hhead =>
      split at hrun
      next hv =>
        simp only [Option.some_inj, Prod.mk.injEq] at hrun
        obtain ⟨rfl, rfl⟩ := hrun
        refine ⟨fun x hx => hx, fun x hx => Or.inl hx, fun hn => hn, fun _ => hv, ?_,
          List.nodup_nil, ?_⟩
        · intro k
          simp only [List.not_mem_nil, false_iff]
          rintro ⟨hk1, hk2, -⟩
          exact hk2 hk1
        · intro _ x hx hnx
          exact absurd hx hnx
      next hv =>
        split at hrun
        next hida =>
          -- in_direct_ancestry = some true
          simp only [Option.some_inj, Prod.mk.injEq] at hrun
          obtain ⟨rfl, rfl⟩ := hrun
          refine ⟨fun x hx => List.mem_cons_of_mem _ hx, ?_, ?_,
            fun _ => List.mem_cons_self _ _, ?_, List.nodup_singleton _, ?_⟩
          · intro x hx
            rcases List.mem_cons.mp hx with rfl | hx2
            · exact Or.inr (by rw [hhead]; rfl)
            · exact Or.inl hx2
          · intro hn
            exact List.nodup_cons.mpr ⟨hv, hn⟩
          · intro k
            simp only [List.mem_singleton]
            constructor
            · rintro rfl
              exact ⟨List.mem_cons_self _ _, hv, active, hhead, hida⟩
            · rintro ⟨hk1, hk2, -⟩
              rcases List.mem_cons.mp hk1 with rfl | hk3
              · rfl
              · exact absurd hk3 hk2
          · intro _ x hx hnx ex hex hnone _ _
            rcases List.mem_cons.mp hx with rfl | hx2
            · rw [hhead] at hex
              cases hex
              rw [hida] at hnone
              cases hnone
            · exact absurd hx2 hnx
        next hida =>
          -- in_direct_ancestry = some false
          simp only [Option.some_inj, Prod.mk.injEq] at hrun
          obtain ⟨rfl, rfl⟩ := hrun
          refine ⟨fun x hx => List.mem_cons_of_mem _ hx, ?_, ?_,
            fun _ => List.mem_cons_self _ _, ?_, List.nodup_nil, ?_⟩
          · intro x hx
            rcases List.mem_cons.mp hx with rfl | hx2
            · exact Or.inr (by rw [hhead]; rfl)
            · exact Or.inl hx2
          · intro hn
            exact List.nodup_cons.mpr ⟨hv, hn⟩
          · intro k
            simp only [List.not_mem_nil, false_iff]
            rintro ⟨hk1, hk2, e, he, htrue⟩
            rcases List.mem_cons.mp hk1 with rfl | hk3
            · rw [hhead] at he
              cases he
              rw [hida] at htrue
              cases htrue
            · exact absurd hk3 hk2
          · intro _ x hx hnx ex hex hnone _ _
            rcases List.mem_cons.mp hx with rfl | hx2
            · rw [hhead] at hex
              cases hex
              rw [hida] at hnone
              cases hnone
            · exact absurd hx2 hnx
        next hida =>
          -- in_direct_ancestry = none
          split at hrun
          next prev hanc =>
            obtain ⟨hsub, hchar, hnodup, hheadmem, hout, houtnodup, hclosed⟩ :=
              ih prev (head :: visited) v2 out hrun
            have hsub2 : ∀ x ∈ visited, x ∈ v2 :=
              fun x hx => hsub x (List.mem_cons_of_mem _ hx)
            have hheadv2 : head ∈ v2 := hsub head (List.mem_cons_self _ _)
            refine ⟨hsub2, ?_, ?_, fun _ => hheadv2, ?_, houtnodup, ?_⟩
            · intro x hx
              rcases hchar x hx with hx2 | hx2
              · rcases List.mem_cons.mp hx2 with rfl | hx3
                · exact Or.inr (by rw [hhead]; rfl)
                · exact Or.inl hx3
              · exact Or.inr hx2
            · intro hn
              exact hnodup (List.nodup_cons.mpr ⟨hv, hn⟩)
            · intro k
              rw [hout k]
              constructor
              · rintro ⟨hk1, hk2, he⟩
                exact ⟨hk1, fun hk3 => hk2 (List.mem_cons_of_mem _ hk3), he⟩
              · rintro ⟨hk1, hk2, e, he, htrue⟩
                refine ⟨hk1, ?_, e, he, htrue⟩
                intro hk3
                rcases List.mem_cons.mp hk3 with rfl | hk4
                · rw [hhead] at he
                  cases he
                  rw [hida] at htrue
                  cases htrue
                · exact hk2 hk4
            · intro hanckeys x hx hnx ex hex hnone p hp
              by_cases hxh : x = head
              · subst hxh
                rw [hhead] at hex
                cases hex
                rw [hanc] at hp
                cases hp
                have hprevkey : (lookupE es prev).isSome = true :=
                  hanckeys _ _ _ hhead hanc
                exact hheadmem hprevkey
              · exact hclosed hanckeys x hx
                  (fun hc => (List.mem_cons.mp hc).elim hxh hnx) ex hex hnone p hp
          next hanc =>
            simp only [Option.some_inj, Prod.mk.injEq] at hrun
            obtain ⟨rfl, rfl⟩ := hrun
            refine ⟨fun x hx => List.mem_cons_of_mem _ hx, ?_, ?_,
              fun _ => List.mem_cons_self _ _, ?_, List.nodup_nil, ?_⟩
            · intro x hx
              rcases List.mem_cons.mp hx with rfl | hx2
              · exact Or.inr (by rw [hhead]; rfl)
              · exact Or.inl hx2
            · intro hn
              exact List.nodup_cons.mpr ⟨hv, hn⟩
            · intro k
              simp only [List.not_mem_nil, false_iff]
              rintro ⟨hk1, hk2, e, he, htrue⟩
              rcases List.mem_cons.mp hk1 with rfl | hk3
              · rw [hhead] at he
                cases he
                rw [hida] at htrue
                cases htrue
              · exact absurd hk3 hk2
            · intro _ x hx hnx ex hex hnone p hp
              rcases List.mem_cons.mp hx with rfl | hx2
              · rw [hhead] at hex
                cases hex
                rw [hanc] at hp
                cases hp
              · exact absurd hx2 hnx

/-- Characterisation of the head-iteration of `find_containing_nodes`,
conditioned on success, by folding `fcnLoop_spec` over the heads. -/
theorem fcnFold_spec [DecidableEq H] (es : EntryMap H V) (hash : H) (number : Nat)
    (fuel : Nat) :
    ∀ (hs vs0 out0 vsF outF : List H),
      fcnFold es hash number fuel hs (vs0, out0) = some (vsF, outF) →
      (∀ x ∈ vs0, x ∈ vsF) ∧
      (∀ x ∈ vsF, x ∈ vs0 ∨ (lookupE es x).isSome = true) ∧
      (vs0.Nodup → vsF.Nodup) ∧
      (∀ hd ∈ hs, (lookupE es hd).isSome = true → hd ∈ vsF) ∧
      ((∀ k, k ∈ out0 ↔ k ∈ vs0 ∧ ∃ e, lookupE es k = some e ∧
          e.in_direct_ancestry hash number = some true) →
        (∀ k, k ∈ outF ↔ k ∈ vsF ∧ ∃ e, lookupE es k = some e ∧
          e.in_direct_ancestry hash number = some true) ∧
        (vs0.Nodup → out0.Nodup → outF.Nodup)) ∧
      ((∀ x ex p, lookupE es x = some ex → ex.ancestor_node = some p →
          (lookupE es p).isSome = true) →
        (∀ x ∈ vs0, ∀ ex, lookupE es x = some ex →
          ex.in_direct_ancestry hash number = none → ∀ p, ex.ancestor_node = some p →
            p ∈ vs0) →
        (∀ x ∈ vsF, ∀ ex, lookupE es x = some ex →
          ex.in_direct_ancestry hash number = none → ∀ p, ex.ancestor_node = some p →
            p ∈ vsF)) := by
  intro hs
  induction hs with
  | nil =>
    intro vs0 out0 vsF outF hrun
    simp only [fcnFold, Option.some_inj, Prod.mk.injEq] at hrun
    obtain ⟨rfl, rfl⟩ := hrun
    exact ⟨fun x hx => hx, fun x hx => Or.inl hx, fun hn => hn, by simp,
      fun h0 => ⟨h0, fun _ h => h⟩, fun _ hcl => hcl⟩
  | cons head rest ih =>
    intro vs0 out0 vsF outF hrun
    unfold fcnFold at hrun
    split at hrun
    next hcall => cases hrun
    next r hcall =>
      obtain ⟨v2, out1⟩ := r
      obtain ⟨csub, cchar, cnodup, cheadmem, cout, coutnodup, cclosed⟩ :=
        fcnLoop_spec es hash number fuel head vs0 v2 out1 hcall
      obtain ⟨isub, ichar, inodup, iheads, iout, iclosed⟩ :=
        ih v2 (out0 ++ out1) vsF outF hrun
      have hsub : ∀ x ∈ vs0, x ∈ vsF := fun x hx => isub x (csub x hx)
      refine ⟨hsub, ?_, ?_, ?_, ?_, ?_⟩
      · intro x hx
        rcases ichar x hx with hx2 | hx2
        · exact cchar x hx2
        · exact Or.inr hx2
      · intro hn
        exact inodup (cnodup hn)
      · intro hd hhd hkey
        rcases List.mem_cons.mp hhd with rfl | hhd2
        · exact isub hd (cheadmem hkey)
        · exact iheads hd hhd2 hkey
      · intro h0
        have h1 : ∀ k, k ∈ out0 ++ out1 ↔ k ∈ v2 ∧ ∃ e, lookupE es k = some e ∧
            e.in_direct_ancestry hash number = some true := by
          intro k
          rw [List.mem_append, h0 k, cout k]
          constructor
          · rintro (⟨hk1, hk2⟩ | ⟨hk1, _, hk2⟩)
            · exact ⟨csub k hk1, hk2⟩
            · exact ⟨hk1, hk2⟩
          · rintro ⟨hk1, hk2⟩
            by_cases hk3 : k ∈ vs0
            · exact Or.inl ⟨hk3, hk2⟩
            · exact Or.inr ⟨hk1, hk3, hk2⟩
        obtain ⟨ioutF, ioutnodup⟩ := iout h1
        refine ⟨ioutF, ?_⟩
        intro hvs0 hout0
        refine ioutnodup (cnodup hvs0) (List.Nodup.append hout0 coutnodup ?_)
        intro k hk0 hk1
        obtain ⟨hkv, -⟩ := (h0 k).mp hk0
        obtain ⟨-, hkn, -⟩ := (cout k).mp hk1
        exact hkn hkv
      · intro hanckeys hcl0
        refine iclosed hanckeys ?_
        intro x hx ex hex hnone p hp
        by_cases hxv : x ∈ vs0
        · exact csub p (hcl0 x hxv ex hex hnone p hp)
        · exact cclosed hanckeys x hx hxv ex hex hnone p hp

/-- Characterisation of `find_containing_nodes`, conditioned on success.  When
an entry at `hash` exists the Rust function returns `None`; otherwise it
returns a duplicate-free list of vote-nodes whose direct ancestry contains
`(hash, number)`, and that list collects exactly the containing nodes of a
visited set that includes every key head and is closed under following
ancestor-node links out of nodes whose ancestry query answered `none`. -/
theorem find_containing_nodes_spec [DecidableEq H] (g : VoteGraph H V) (hash : H)
    (number : Nat) (r : Option (List H))
    (hrun : g.find_containing_nodes hash number = some r) :
    (r = none ↔ (lookupE g.entries hash).isSome = true) ∧
    (∀ L, r = some L →
      lookupE g.entries hash = none ∧
      L.Nodup ∧
      (∀ k ∈ L, ∃ e, lookupE g.entries k = some e ∧
        e.in_direct_ancestry hash number = some true) ∧
      ∃ vsF : List H,
        (∀ hd ∈ g.heads, (lookupE g.entries hd).isSome = true → hd ∈ vsF) ∧
        ((∀ x ex p, lookupE g.entries x = some ex → ex.ancestor_node = some p →
            (lookupE g.entries p).isSome = true) →
          ∀ x ∈ vsF, ∀ ex, lookupE g.entries x = some ex →
            ex.in_direct_ancestry hash number = none →
            ∀ p, ex.ancestor_node = some p → p ∈ vsF) ∧
        (∀ k, k ∈ L ↔ k ∈ vsF ∧ ∃ e, lookupE g.entries k = some e ∧
          e.in_direct_ancestry hash number = some true)) := by
  unfold VoteGraph.find_containing_nodes at hrun
  split at hrun
  next hkey =>
    simp only [Option.some_inj] at hrun
    subst hrun
    refine ⟨by simp [hkey], ?_⟩
    intro L hL
    cases hL
  next hkey =>
    simp only [Bool.not_eq_true] at hkey
    cases hfold : fcnFold g.entries hash number (g.entries.length + 1) g.heads ([], []) with
    | none =>
      rw [hfold] at hrun
      cases hrun
    | some acc =>
      rw [hfold] at hrun
      obtain ⟨vsF, outF⟩ := acc
      simp only [Option.map_some', Option.some_inj] at hrun
      subst hrun
      constructor
      · constructor
        · intro hc
          cases hc
        · intro hc
          rw [hc] at hkey
          cases hkey
      · intro L hL
        simp only [Option.some_inj] at hL
        subst hL
        have hkeynone : lookupE g.entries hash = none := by
          cases hlk : lookupE g.entries hash
          · rfl
          · rw [hlk] at hkey
            cases hkey
        obtain ⟨fsub, fchar, fnodup, fheads, fout, fclosed⟩ :=
          fcnFold_spec g.entries hash number (g.entries.length + 1) g.heads [] [] vsF outF
            hfold
        have h0 : ∀ k, (k ∈ ([] : List H)) ↔ k ∈ ([] : List H) ∧
            ∃ e, lookupE g.entries k = some e ∧
              e.in_direct_ancestry hash number = some true := by
          simp
        obtain ⟨houtF, houtnodup⟩ := fout h0
        refine ⟨hkeynone, houtnodup List.nodup_nil List.nodup_nil, ?_, vsF, ?_, ?_, houtF⟩
        · intro k hk
          exact ((houtF k).mp hk).2
        · intro hd hhd hkeyhd
          exact fheads hd hhd hkeyhd
        · intro hanckeys
          refine fclosed hanckeys ?_
          intro x hx
          cases hx

/-! ## The branch-introduction fold -/

/-- Characterisation of the `introduce_branch` fold once the accumulated new
entry exists: conditioned on success and a duplicate-free descendant list,
each listed descendant's ancestor edge is truncated at its offset to the new
ancestor, other entries are untouched, and the accumulated entry collects the
descendants and their cumulative votes in order. -/
theorem ibFold_some_spec [DecidableEq H] [Zero V] [Add V] (n : Nat) :
    ∀ (L : List H) (es0 : EntryMap H V) (e0 : Entry H V) (es1 : EntryMap H V)
      (m1 : Option (Entry H V)),
      ibFold n L (es0, some e0) = some (es1, m1) → L.Nodup →
      es1.map Prod.fst = es0.map Prod.fst ∧
      (∀ k, k ∉ L → lookupE es1 k = lookupE es0 k) ∧
      (∀ d ∈ L, ∃ ed, lookupE es0 d = some ed ∧ n ≤ ed.number ∧
        lookupE es1 d = some { ed with ancestors := ed.ancestors.take (ed.number - n) }) ∧
      ∃ e1, m1 = some e1 ∧
        e1.number = e0.number ∧
        e1.ancestors = e0.ancestors ∧
        e1.descendents = e0.descendents ++ L ∧
        e1.cumulative_vote =
          L.foldl (fun acc dd => acc + cumOf es0 dd) e0.cumulative_vote := by
  intro L
  induction L with
  | nil =>
    intro es0 e0 es1 m1 hrun _
    simp only [ibFold, Option.some_inj, Prod.mk.injEq] at hrun
    obtain ⟨rfl, rfl⟩ := hrun
    exact ⟨rfl, fun k _ => rfl, by simp, e0, rfl, rfl, rfl, by simp, rfl⟩
  | cons d rest ih =>
    intro es0 e0 es1 m1 hrun hnodup
    have hdrest : d ∉ rest := (List.nodup_cons.mp hnodup).1
    have hrestnodup : rest.Nodup := (List.nodup_cons.mp hnodup).2
    unfold ibFold at hrun
    split at hrun
    next hlk => cases hrun
    next entry hlk =>
      split at hrun
      next hle =>
        simp only [Option.getD_some] at hrun
        set es0' := updateE es0 d
          (fun e => { e with ancestors := e.ancestors.take (entry.number - n) }) with hes0'
        obtain ⟨ikeys, iunch, itrunc, e1, he1, hnum, hanc, hdesc, hcum⟩ :=
          ih es0' _ es1 m1 hrun hrestnodup
        have hlk' : ∀ k, k ≠ d → lookupE es0' k = lookupE es0 k := by
          intro k hk
          rw [hes0', lookupE_updateE, if_neg hk]
        have hkeys : es1.map Prod.fst = es0.map Prod.fst := by
          rw [ikeys, hes0', keys_updateE]
        refine ⟨hkeys, ?_, ?_, e1, he1, by simpa using hnum, by simpa using hanc, ?_, ?_⟩
        · intro k hk
          have hk1 : k ≠ d := fun hc => hk (hc ▸ List.mem_cons_self _ _)
          have hk2 : k ∉ rest := fun hc => hk (List.mem_cons_of_mem _ hc)
          rw [iunch k hk2, hlk' k hk1]
        · intro dd hdd
          rcases List.mem_cons.mp hdd with rfl | hdd2
          · refine ⟨entry, hlk, hle, ?_⟩
            rw [iunch dd hdrest, hes0', lookupE_updateE, if_pos rfl, hlk]
            rfl
          · obtain ⟨ed, hed, hnle, htr⟩ := itrunc dd hdd2
            have hddne : dd ≠ d := fun hc => hdrest (hc ▸ hdd2)
            rw [hlk' dd hddne] at hed
            exact ⟨ed, hed, hnle, htr⟩
        · rw [hdesc]
          simp
        · rw [hcum]
          simp only [List.foldl_cons]
          have : ∀ acc : V, ∀ b ∈ rest, acc + cumOf es0' b = acc + cumOf es0 b := by
            intro acc b hb
            have hbne : b ≠ d := fun hc => hdrest (hc ▸ hb)
            rw [cumOf, hlk' b hbne, cumOf]
          rw [List.foldl_ext _ _ _ this]
          have hc0 : cumOf es0 d = entry.cumulative_vote := by
            rw [cumOf, hlk]
            rfl
          rw [hc0]
      next hle => cases hrun

/-- Characterisation of the full `introduce_branch` fold from an empty
accumulator on a non-empty duplicate-free descendant list: the new entry is
assembled from the first descendant's tail and collects every descendant and
the ordered sum of their cumulative votes. -/
theorem ibFold_spec [DecidableEq H] [Zero V] [Add V] (n : Nat) (L : List H)
    (es0 es1 : EntryMap H V) (m1 : Option (Entry H V))
    (hrun : ibFold n L (es0, none) = some (es1, m1)) (hnodup : L.Nodup) (hne : L ≠ []) :
    es1.map Prod.fst = es0.map Prod.fst ∧
    (∀ k, k ∉ L → lookupE es1 k = lookupE es0 k) ∧
    (∀ d ∈ L, ∃ ed, lookupE es0 d = some ed ∧ n ≤ ed.number ∧
      lookupE es1 d = some { ed with ancestors := ed.ancestors.take (ed.number - n) }) ∧
    ∃ d0 rest, L = d0 :: rest ∧
    ∃ ed0, lookupE es0 d0 = some ed0 ∧
    ∃ e1, m1 = some e1 ∧
      e1.number = n ∧
      e1.ancestors = ed0.ancestors.drop (ed0.number - n) ∧
      e1.descendents = L ∧
      e1.cumulative_vote =
        rest.foldl (fun acc dd => acc + cumOf es0 dd) ((0 : V) + ed0.cumulative_vote) := by
  cases L with
  | nil => exact absurd rfl hne
  | cons d rest =>
    have hdrest : d ∉ rest := (List.nodup_cons.mp hnodup).1
    have hrestnodup : rest.Nodup := (List.nodup_cons.mp hnodup).2
    unfold ibFold at hrun
    split at hrun
    next hlk => cases hrun
    next entry hlk =>
      split at hrun
      next hle =>
        simp only [Option.getD_none] at hrun
        set es0' := updateE es0 d
          (fun e => { e with ancestors := e.ancestors.take (entry.number - n) }) with hes0'
        obtain ⟨ikeys, iunch, itrunc, e1, he1, hnum, hanc, hdesc, hcum⟩ :=
          ibFold_some_spec n rest es0' _ es1 m1 hrun hrestnodup
        have hlk' : ∀ k, k ≠ d → lookupE es0' k = lookupE es0 k := by
          intro k hk
          rw [hes0', lookupE_updateE, if_neg hk]
        have hkeys : es1.map Prod.fst = es0.map Prod.fst := by
          rw [ikeys, hes0', keys_updateE]
        refine ⟨hkeys, ?_, ?_, d, rest, rfl, entry, hlk, e1, he1, by simpa using hnum,
          by simpa using hanc, ?_, ?_⟩
        · intro k hk
          have hk1 : k ≠ d := fun hc => hk (hc ▸ List.mem_cons_self _ _)
          have hk2 : k ∉ rest := fun hc => hk (List.mem_cons_of_mem _ hc)
          rw [iunch k hk2, hlk' k hk1]
        · intro dd hdd
          rcases List.mem_cons.mp hdd with rfl | hdd2
          · refine ⟨entry, hlk, hle, ?_⟩
            rw [iunch dd hdrest, hes0', lookupE_updateE, if_pos rfl, hlk]
            rfl
          · obtain ⟨ed, hed, hnle, htr⟩ := itrunc dd hdd2
            have hddne : dd ≠ d := fun hc => hdrest (hc ▸ hdd2)
            rw [hlk' dd hddne] at hed
            exact ⟨ed, hed, hnle, htr⟩
        · rw [hdesc]
          simp
        · rw [hcum]
          have : ∀ acc : V, ∀ b ∈ rest, acc + cumOf es0' b = acc + cumOf es0 b := by
            intro acc b hb
            have hbne : b ≠ d := fun hc => hdrest (hc ▸ hb)
            rw [cumOf, hlk' b hbne, cumOf]
          rw [List.foldl_ext _ _ _ this]
      next hle => cases hrun

/-! ## Effect of `append`, `introduce_branch` and `insert` -/

/-- Characterisation of a successful `append` of a fresh hash: the ancestry is
produced by the oracle, the attachment point `ahash` is the first tracked
ancestor on it, the new entry stores the truncated ancestry, `ahash` gains the
new hash as a descendent and loses its head status, and everything else is
untouched. -/
theorem append_spec [DecidableEq H] [Zero V] (g g2 : VoteGraph H V) (hash : H)
    (number : Nat) (ancestryFn : H → H → Option (List H))
    (hrun : g.append hash number ancestryFn = some g2)
    (hfresh : lookupE g.entries hash = none) (hnh : hash ∉ g.heads) :
    ∃ ancestry i ahash,
      ancestryFn g.base hash = some ancestry ∧
      ancestry[i]? = some ahash ∧
      (lookupE g.entries ahash).isSome = true ∧
      (∀ j x, j < i → ancestry[j]? = some x → lookupE g.entries x = none) ∧
      ahash ≠ hash ∧
      g2.base = g.base ∧
      g2.heads = hash :: g.heads.erase ahash ∧
      g2.entries.map Prod.fst = g.entries.map Prod.fst ++ [hash] ∧
      (∀ k, k ≠ hash → k ≠ ahash → lookupE g2.entries k = lookupE g.entries k) ∧
      (∀ ea, lookupE g.entries ahash = some ea →
        lookupE g2.entries ahash = some { ea with descendents := ea.descendents ++ [hash] }) ∧
      lookupE g2.entries hash = some
        { number := number, ancestors := ancestry.take (i + 1), descendents := [],
          cumulative_vote := 0 } := by
  unfold VoteGraph.append at hrun
  cases han : ancestryFn g.base hash with
  | none => rw [han] at hrun; simp at hrun
  | some ancestry =>
    rw [han] at hrun
    simp only [Option.bind_eq_bind, Option.some_bind] at hrun
    cases hidx : ancestry.findIdx? (fun a => (lookupE g.entries a).isSome) with
    | none => rw [hidx] at hrun; simp at hrun
    | some i =>
      rw [hidx] at hrun
      simp only [Option.some_bind] at hrun
      obtain ⟨hilt, hpi, hmin⟩ := List.findIdx?_eq_some_iff_getElem.mp hidx
      have hget : ancestry[i]? = some ancestry[i] := List.getElem?_eq_getElem hilt
      rw [hget] at hrun
      simp only [Option.some_bind, Option.some_inj] at hrun
      set ahash := ancestry[i] with hahash
      have hane : ahash ≠ hash := by
        intro hc
        rw [hc, hfresh] at hpi
        cases hpi
      have hfresh2 : lookupE (updateE g.entries ahash
          (fun e => { e with descendents := e.descendents ++ [hash] })) hash = none := by
        rw [lookupE_updateE, if_neg (fun hc => hane hc.symm), hfresh]
      refine ⟨ancestry, i, ahash, rfl, hget, hpi, ?_, hane, ?_, ?_, ?_, ?_, ?_, ?_⟩
      · intro j x hj hx
        have := hmin j hj
        simp only [Bool.not_eq_true] at this
        have hxx : ancestry[j] = x := by
          have := List.getElem?_eq_getElem (Nat.lt_trans hj hilt)
          rw [this] at hx
          exact Option.some_inj.mp hx
        rw [← hxx]
        cases hl : lookupE g.entries ancestry[j]
        · rfl
        · rw [hl] at this
          cases this
      · rw [← hrun]
      · rw [← hrun]
        simp only
        have : hash ∉ g.heads.erase ahash := fun hc => hnh (List.mem_of_mem_erase hc)
        rw [if_neg this]
      · rw [← hrun]
        simp only
        rw [keys_insertE_fresh hfresh2, keys_updateE]
      · intro k hk1 hk2
        rw [← hrun]
        simp only
        rw [lookupE_insertE_fresh hfresh2, if_neg hk1, lookupE_updateE, if_neg hk2]
      · intro ea hea
        rw [← hrun]
        simp only
        rw [lookupE_insertE_fresh hfresh2, if_neg hane, lookupE_updateE, if_pos rfl, hea]
        rfl
      · rw [← hrun]
        simp only
        rw [lookupE_insertE_fresh hfresh2, if_pos rfl]

/-- Characterisation of a successful `introduce_branch` of a fresh hash at a
duplicate-free, non-empty containing list of tracked keys: the listed
descendants' edges are truncated, the new entry is created at `hash` from the
first descendant's tail with the descendants' ordered cumulative votes, and
heads and all other entries are untouched. -/
theorem introduce_branch_spec [DecidableEq H] [Zero V] [Add V] (g g1 : VoteGraph H V)
    (L : List H) (hash : H) (n : Nat)
    (hrun : g.introduce_branch L hash n = some g1)
    (hnodup : L.Nodup) (hne : L ≠ [])
    (hfresh : lookupE g.entries hash = none)
    (hLkeys : ∀ d ∈ L, (lookupE g.entries d).isSome = true) :
    g1.base = g.base ∧ g1.heads = g.heads ∧
    g1.entries.map Prod.fst = g.entries.map Prod.fst ++ [hash] ∧
    (∀ k, k ≠ hash → k ∉ L → lookupE g1.entries k = lookupE g.entries k) ∧
    (∀ d ∈ L, ∃ ed, lookupE g.entries d = some ed ∧ n ≤ ed.number ∧
      lookupE g1.entries d = some { ed with ancestors := ed.ancestors.take (ed.number - n) }) ∧
    ∃ d0 rest ed0 e1, L = d0 :: rest ∧ lookupE g.entries d0 = some ed0 ∧
      lookupE g1.entries hash = some e1 ∧
      e1.number = n ∧ e1.ancestors = ed0.ancestors.drop (ed0.number - n) ∧
      e1.descendents = L ∧
      e1.cumulative_vote =
        rest.foldl (fun acc dd => acc + cumOf g.entries dd) ((0 : V) + ed0.cumulative_vote) := by
  have hashL : hash ∉ L := by
    intro hc
    have := hLkeys hash hc
    rw [hfresh] at this
    cases this
  unfold VoteGraph.introduce_branch at hrun
  cases hfold : ibFold n L (g.entries, none) with
  | none => rw [hfold] at hrun; simp at hrun
  | some folded =>
    rw [hfold] at hrun
    simp only [Option.bind_eq_bind, Option.some_bind] at hrun
    obtain ⟨es1, m1⟩ := folded
    obtain ⟨ikeys, iunch, itrunc, d0, rest, hL, ed0, hed0, e1, hm1, hnum, hanc, hdesc, hcum⟩ :=
      ibFold_spec n L g.entries es1 m1 hfold hnodup hne
    subst hm1
    simp only at hrun
    have hfresh1 : lookupE es1 hash = none := by
      rw [iunch hash hashL, hfresh]
    rw [hfresh1] at hrun
    simp only [Option.isSome_none, Bool.false_eq_true, if_false, Option.some_inj] at hrun
    subst hrun
    refine ⟨rfl, rfl, ?_, ?_, ?_, d0, rest, ed0, e1, hL, hed0, ?_, hnum, hanc, hdesc, hcum⟩
    · simp only
      rw [keys_insertE_fresh hfresh1, ikeys]
    · intro k hk1 hk2
      simp only
      rw [lookupE_insertE_fresh hfresh1, if_neg hk1, iunch k hk2]
    · intro d hd
      obtain ⟨ed, hed, hnle, htr⟩ := itrunc d hd
      have hdne : d ≠ hash := fun hc => hashL (hc ▸ hd)
      refine ⟨ed, hed, hnle, ?_⟩
      simp only
      rw [lookupE_insertE_fresh hfresh1, if_neg hdne, htr]
    · simp only
      rw [lookupE_insertE_fresh hfresh1, if_pos rfl]

/-- Decomposition of a successful `insert` into its two phases: the structural
phase (no-op, `append`, or `introduce_branch` according to
`find_containing_nodes`) followed by the weight walk. -/
theorem insert_split [DecidableEq H] [Zero V] [Add V] (g g2 : VoteGraph H V) (hash : H)
    (number : Nat) (vote : V) (fn : H → H → Option (List H))
    (hrun : g.insert hash number vote fn = some g2) :
    ∃ g1 es2, cumWalk (g1.entries.length + 1) g1.entries hash vote = some es2 ∧
      g2 = { g1 with entries := es2 } ∧
      ((g.find_containing_nodes hash number = some none ∧ g1 = g) ∨
       (g.find_containing_nodes hash number = some (some []) ∧
         g.append hash number fn = some g1) ∨
       (∃ L, g.find_containing_nodes hash number = some (some L) ∧ L ≠ [] ∧
         g.introduce_branch L hash number = some g1)) := by
  unfold VoteGraph.insert at hrun
  cases hfcn : g.find_containing_nodes hash number with
  | none => rw [hfcn] at hrun; simp at hrun
  | some r =>
    rw [hfcn] at hrun
    cases r with
    | none =>
      simp only [Option.bind_eq_bind, Option.some_bind] at hrun
      cases hw : cumWalk (g.entries.length + 1) g.entries hash vote with
      | none => rw [hw] at hrun; simp at hrun
      | some es2 =>
        rw [hw] at hrun
        simp only [Option.some_bind, Option.some_inj] at hrun
        exact ⟨g, es2, hw, hrun.symm, Or.inl ⟨rfl, rfl⟩⟩
    | some L =>
      simp only [Option.bind_eq_bind] at hrun
      by_cases hL : L.isEmpty
      · rw [if_pos hL] at hrun
        have hLnil : L = [] := List.isEmpty_iff.mp hL
        cases hap : g.append hash number fn with
        | none => rw [hap] at hrun; simp at hrun
        | some g1 =>
          rw [hap] at hrun
          simp only [Option.some_bind] at hrun
          cases hw : cumWalk (g1.entries.length + 1) g1.entries hash vote with
          | none => rw [hw] at hrun; simp at hrun
          | some es2 =>
            rw [hw] at hrun
            simp only [Option.some_bind, Option.some_inj] at hrun
            exact ⟨g1, es2, hw, hrun.symm, Or.inr (Or.inl ⟨by rw [hLnil], rfl⟩)⟩
      · rw [if_neg hL] at hrun
        have hLne : L ≠ [] := fun hc => hL (by rw [hc]; rfl)
        cases hib : g.introduce_branch L hash number with
        | none => rw [hib] at hrun; simp at hrun
        | some g1 =>
          rw [hib] at hrun
          simp only [Option.some_bind] at hrun
          cases hw : cumWalk (g1.entries.length + 1) g1.entries hash vote with
          | none => rw [hw] at hrun; simp at hrun
          | some es2 =>
            rw [hw] at hrun
            simp only [Option.some_bind, Option.some_inj] at hrun
            exact ⟨g1, es2, hw, hrun.symm, Or.inr (Or.inr ⟨L, rfl, hLne, hib⟩)⟩

/-! ## The heads invariant (claim C8) -/

theorem HInv_new [DecidableEq H] [Zero V] (b : H) (bn : Nat) :
    HInv (VoteGraph.new b bn : VoteGraph H V) := by
  have hbase : lookupE (VoteGraph.new b bn : VoteGraph H V).entries b =
      some { number := bn, ancestors := [], descendents := [], cumulative_vote := 0 } := by
    show lookupE [(b, _)] b = _
    rw [lookupE_cons, if_pos rfl]
  have hmiss : ∀ h, h ≠ b → lookupE (VoteGraph.new b bn : VoteGraph H V).entries h = none := by
    intro h hb
    show lookupE [(b, _)] h = none
    rw [lookupE_cons, if_neg hb]
    rfl
  refine ⟨List.nodup_singleton _, ?_, ?_⟩
  · intro h hh
    rcases List.mem_singleton.mp hh with rfl
    rw [hbase]
    rfl
  · intro h
    constructor
    · intro hh
      rcases List.mem_singleton.mp hh with rfl
      exact ⟨_, hbase, rfl⟩
    · rintro ⟨e, he, -⟩
      by_cases hb : h = b
      · subst hb
        exact List.mem_singleton_self _
      · rw [hmiss h hb] at he
        cases he

/-- Helper: transport an entry backwards along a shape equality. -/
theorem ShapeEq.symmEntry [DecidableEq H] {es1 es2 : EntryMap H V} (h : ShapeEq es1 es2)
    {k : H} {e2 : Entry H V} (he2 : lookupE es2 k = some e2) (hd2 : e2.descendents = []) :
    ∃ e, lookupE es1 k = some e ∧ e.number = e2.number ∧ e.ancestors = e2.ancestors ∧
      e.descendents = [] := by
  have hk := h k
  rw [he2] at hk
  cases h1 : lookupE es1 k with
  | none => rw [h1] at hk; simp at hk
  | some e =>
    rw [h1] at hk
    simp only [Option.map_some', Option.some_inj] at hk
    have hfields : e.number = e2.number ∧ e.ancestors = e2.ancestors ∧
        e.descendents = e2.descendents := by
      simpa [Entry.shape, Prod.ext_iff] using hk
    exact ⟨e, rfl, hfields.1, hfields.2.1, hd2 ▸ hfields.2.2⟩

theorem HInv_of_shape [DecidableEq H] {g : VoteGraph H V} {es2 : EntryMap H V}
    (hs : ShapeEq g.entries es2) (hi : HInv g) :
    HInv { g with entries := es2 } := by
  refine ⟨hi.heads_nodup, ?_, ?_⟩
  · intro h hh
    have := hi.heads_sub h hh
    simp only
    rw [← hs.isSome h]
    exact this
  · intro h
    rw [hi.heads_iff h]
    constructor
    · rintro ⟨e, he, hd⟩
      obtain ⟨e2, he2, -, -, hd2⟩ := hs.entry he
      exact ⟨e2, he2, hd2.trans hd⟩
    · rintro ⟨e2, he2, hd2⟩
      obtain ⟨e, he, -, -, hd⟩ := hs.symmEntry he2 hd2
      exact ⟨e, he, hd⟩

/-! ## Direct-ancestry characterisations -/

theorem ida_eq_some_true_iff [DecidableEq H] (e : Entry H V) (hash : H) (number : Nat) :
    e.in_direct_ancestry hash number = some true ↔
      number < e.number ∧ e.ancestors[e.number - number - 1]? = some hash := by
  unfold Entry.in_direct_ancestry
  by_cases hge : number ≥ e.number
  · rw [if_pos hge]
    have h1 : ¬ number < e.number := by omega
    simp [h1]
  · rw [if_neg hge]
    have h1 : number < e.number := by omega
    cases hl : e.ancestors[e.number - number - 1]? with
    | none => simp [h1]
    | some x =>
      by_cases hx : x = hash <;> simp [hx, h1]

theorem ida_eq_none_iff [DecidableEq H] (e : Entry H V) (hash : H) (number : Nat) :
    e.in_direct_ancestry hash number = none ↔
      e.number ≤ number ∨ e.ancestors.length ≤ e.number - number - 1 := by
  unfold Entry.in_direct_ancestry
  by_cases hge : number ≥ e.number
  · rw [if_pos hge]
    simp [hge]
  · rw [if_neg hge]
    cases hl : e.ancestors[e.number - number - 1]? with
    | none =>
      have hlen : e.ancestors.length ≤ e.number - number - 1 := by
        by_contra hc
        push_neg at hc
        rw [List.getElem?_eq_getElem hc] at hl
        cases hl
      simp [hlen]
    | some x =>
      have hlen : e.number - number - 1 < e.ancestors.length := by
        by_contra hc
        push_neg at hc
        rw [List.getElem?_eq_none hc] at hl
        cases hl
      simp only [Option.map_some']
      constructor
      · intro hc
        cases hc
      · intro hc
        omega

/-! ## Chain coherence lemmas -/

theorem Chain.anc_cons (c : Chain H) {h p : H} {rest : List H}
    (hh : c.anc h = p :: rest) : c.anc p = rest ∧ c.num h = c.num p + 1 := by
  have hhead : (c.anc h).head? = some p := by rw [hh]; rfl
  have h1 := c.coh h p hhead
  have h2 := c.numStep h p hhead
  rw [hh] at h1
  exact ⟨h1, h2⟩

theorem Chain.num_getElem (c : Chain H) :
    ∀ (i : Nat) (h x : H), (c.anc h)[i]? = some x → c.num x + i + 1 = c.num h := by
  intro i
  induction i with
  | zero =>
    intro h x hx
    cases hanc : c.anc h with
    | nil => rw [hanc] at hx; cases hx
    | cons p rest =>
      rw [hanc] at hx
      simp only [List.getElem?_cons_zero, Option.some_inj] at hx
      subst hx
      have := (c.anc_cons hanc).2
      omega
  | succ i ih =>
    intro h x hx
    cases hanc : c.anc h with
    | nil => rw [hanc] at hx; cases hx
    | cons p rest =>
      rw [hanc] at hx
      simp only [List.getElem?_cons_succ] at hx
      obtain ⟨hrest, hnum⟩ := c.anc_cons hanc
      have := ih p x (by rw [hrest]; exact hx)
      omega

theorem Chain.anc_getElem (c : Chain H) :
    ∀ (i : Nat) (h x : H), (c.anc h)[i]? = some x → c.anc x = (c.anc h).drop (i + 1) := by
  intro i
  induction i with
  | zero =>
    intro h x hx
    cases hanc : c.anc h with
    | nil => rw [hanc] at hx; cases hx
    | cons p rest =>
      rw [hanc] at hx
      simp only [List.getElem?_cons_zero, Option.some_inj] at hx
      subst hx
      rw [List.drop_succ_cons, List.drop_zero]
      exact (c.anc_cons hanc).1
  | succ i ih =>
    intro h x hx
    cases hanc : c.anc h with
    | nil => rw [hanc] at hx; cases hx
    | cons p rest =>
      rw [hanc] at hx
      simp only [List.getElem?_cons_succ] at hx
      obtain ⟨hrest, -⟩ := c.anc_cons hanc
      rw [List.drop_succ_cons]
      have := ih p x (by rw [hrest]; exact hx)
      rw [this, hrest]

theorem Chain.num_lt_of_mem (c : Chain H) {h x : H} (hx : x ∈ c.anc h) :
    c.num x < c.num h := by
  obtain ⟨i, hget⟩ := List.mem_iff_getElem?.mp hx
  have := c.num_getElem i h x hget
  omega

theorem Chain.mem_anc_trans (c : Chain H) {h x y : H} (hx : x ∈ c.anc h)
    (hy : y ∈ c.anc x) : y ∈ c.anc h := by
  obtain ⟨i, hget⟩ := List.mem_iff_getElem?.mp hx
  rw [c.anc_getElem i h x hget] at hy
  exact List.drop_subset _ _ hy

theorem Chain.index_unique (c : Chain H) {h x : H} {i j : Nat}
    (hi : (c.anc h)[i]? = some x) (hj : (c.anc h)[j]? = some x) : i = j := by
  have h1 := c.num_getElem i h x hi
  have h2 := c.num_getElem j h x hj
  omega

theorem Chain.mem_getElem_pos (c : Chain H) {h x : H} (hx : x ∈ c.anc h) :
    (c.anc h)[c.num h - c.num x - 1]? = some x := by
  obtain ⟨i, hget⟩ := List.mem_iff_getElem?.mp hx
  have := c.num_getElem i h x hget
  have hi : i = c.num h - c.num x - 1 := by omega
  rw [← hi]
  exact hget

theorem chainContains_iff [DecidableEq H] (c : Chain H) (h x : H) :
    chainContains c h x = true ↔ x = h ∨ x ∈ c.anc h := by
  unfold chainContains
  simp

theorem chainContains_self [DecidableEq H] (c : Chain H) (h : H) :
    chainContains c h h = true := by
  rw [chainContains_iff]
  exact Or.inl rfl

/-- A coherent chain oracle result: membership of the base and the positional
content of the returned ancestry. -/
theorem Chain.ancestry_some [DecidableEq H] (c : Chain H) {b h : H} {l : List H}
    (hl : c.ancestry b h = some l) :
    b ∈ c.anc h ∧ l = (c.anc h).take ((c.anc h).indexOf b + 1) := by
  unfold Chain.ancestry at hl
  split at hl
  next hb => exact ⟨hb, (Option.some_inj.mp hl).symm⟩
  next hb => cases hl

theorem Chain.ancestry_none [DecidableEq H] (c : Chain H) {b h : H}
    (hb : b ∉ c.anc h) : c.ancestry b h = none := by
  unfold Chain.ancestry
  rw [if_neg hb]

/-! ## Consequences of the structural invariant -/

theorem stepTo_det [DecidableEq H] {es : EntryMap H V} {x y z : H}
    (h1 : stepTo es x y) (h2 : stepTo es x z) : y = z := by
  unfold stepTo at h1 h2
  rw [h1] at h2
  exact Option.some_inj.mp h2

theorem reaches_comparable [DecidableEq H] {es : EntryMap H V} {k d1 d2 : H}
    (h1 : Reaches es k d1) (h2 : Reaches es k d2) :
    Reaches es d1 d2 ∨ Reaches es d2 d1 := by
  induction h1 with
  | refl => exact Or.inl h2
  | tail hpre hstep ih =>
    rename_i m d1'
    rcases ih with hmd | hdm
    · rcases Relation.ReflTransGen.cases_head hmd with rfl | ⟨y, hy, hyd⟩
      · exact Or.inr (Relation.ReflTransGen.single hstep)
      · have : y = d1' := stepTo_det hy hstep
        subst this
        exact Or.inl hyd
    · exact Or.inr (hdm.tail hstep)

theorem GInv.entry_number [DecidableEq H] {c : Chain H} {b : H} {g : VoteGraph H V}
    (hg : GInv c b g) {h : H} {e : Entry H V} (he : lookupE g.entries h = some e) :
    e.number = c.num h := by
  by_cases hb : h = b
  · subst hb
    obtain ⟨e0, he0, -, hn0⟩ := hg.base_entry
    rw [he0] at he
    cases he
    exact hn0
  · exact (hg.wf h e he hb).1

theorem GInv.ancestors_len_le [DecidableEq H] {c : Chain H} {b : H} {g : VoteGraph H V}
    (hg : GInv c b g) {h : H} {e : Entry H V} (he : lookupE g.entries h = some e)
    (hb : h ≠ b) : e.ancestors.length ≤ (c.anc h).length := by
  have hpre := (hg.wf h e he hb).2.2.1
  have : e.ancestors.length = min e.ancestors.length (c.anc h).length := by
    conv =>
      lhs
      rw [hpre]
    rw [List.length_take]
  omega

theorem GInv.ancestors_getElem [DecidableEq H] {c : Chain H} {b : H} {g : VoteGraph H V}
    (hg : GInv c b g) {h : H} {e : Entry H V} (he : lookupE g.entries h = some e)
    (hb : h ≠ b) {j : Nat} (hj : j < e.ancestors.length) :
    e.ancestors[j]? = (c.anc h)[j]? := by
  have hpre := (hg.wf h e he hb).2.2.1
  conv =>
    lhs
    rw [hpre]
  exact List.getElem?_take_of_lt hj

theorem GInv.anc_node_spec [DecidableEq H] {c : Chain H} {b : H} {g : VoteGraph H V}
    (hg : GInv c b g) {h p : H} {e : Entry H V} (he : lookupE g.entries h = some e)
    (hb : h ≠ b) (hp : e.ancestor_node = some p) :
    (c.anc h)[e.ancestors.length - 1]? = some p ∧
    p ∈ c.anc h ∧ c.num p + e.ancestors.length = c.num h ∧
    (lookupE g.entries p).isSome = true := by
  obtain ⟨-, hne, -, hlast, -⟩ := hg.wf h e he hb
  have hL : 0 < e.ancestors.length := List.length_pos.mpr hne
  have hget : e.ancestors[e.ancestors.length - 1]? = some p := by
    rw [← List.getLast?_eq_getElem?]
    exact hp
  have hget2 : (c.anc h)[e.ancestors.length - 1]? = some p := by
    rw [← hg.ancestors_getElem he hb (by omega)]
    exact hget
  have hnum := c.num_getElem _ h p hget2
  refine ⟨hget2, List.mem_iff_getElem?.mpr ⟨_, hget2⟩, by omega, hlast p hp⟩

theorem GInv.anckeys [DecidableEq H] {c : Chain H} {b : H} {g : VoteGraph H V}
    (hg : GInv c b g) : ∀ x ex p, lookupE g.entries x = some ex →
      ex.ancestor_node = some p → (lookupE g.entries p).isSome = true := by
  intro x ex p he hp
  by_cases hb : x = b
  · subst hb
    obtain ⟨e0, he0, ha0, -⟩ := hg.base_entry
    rw [he0] at he
    cases he
    rw [Entry.ancestor_node, ha0] at hp
    cases hp
  · exact (hg.anc_node_spec he hb hp).2.2.2

theorem GInv.step_facts [DecidableEq H] {c : Chain H} {b : H} {g : VoteGraph H V}
    (hg : GInv c b g) {x y : H} (hs : stepTo g.entries x y) :
    ∃ ex, lookupE g.entries x = some ex ∧ ex.ancestor_node = some y ∧ x ≠ b ∧
      y ∈ c.anc x ∧ c.num y < c.num x ∧ (lookupE g.entries y).isSome = true := by
  unfold stepTo ancNodeOf at hs
  cases he : lookupE g.entries x with
  | none => rw [he] at hs; cases hs
  | some ex =>
    rw [he] at hs
    simp only [Option.some_bind] at hs
    have hb : x ≠ b := by
      intro hc
      subst hc
      obtain ⟨e0, he0, ha0, -⟩ := hg.base_entry
      rw [he0] at he
      cases he
      rw [Entry.ancestor_node, ha0] at hs
      cases hs
    obtain ⟨-, hmem, hnum, hkey⟩ := hg.anc_node_spec he hb hs
    obtain ⟨-, hne2, -, -, -⟩ := hg.wf x ex he hb
    have hL : 0 < ex.ancestors.length := List.length_pos.mpr hne2
    exact ⟨ex, rfl, hs, hb, hmem, by omega, hkey⟩

theorem GInv.reaches_num [DecidableEq H] {c : Chain H} {b : H} {g : VoteGraph H V}
    (hg : GInv c b g) {x y : H} (hr : Reaches g.entries x y) : c.num y ≤ c.num x := by
  induction hr with
  | refl => exact Nat.le_refl _
  | tail hpre hstep ih =>
    obtain ⟨-, -, -, -, -, hlt, -⟩ := hg.step_facts hstep
    omega

theorem GInv.reaches_chain [DecidableEq H] {c : Chain H} {b : H} {g : VoteGraph H V}
    (hg : GInv c b g) {x y : H} (hr : Reaches g.entries x y) : y = x ∨ y ∈ c.anc x := by
  induction hr with
  | refl => exact Or.inl rfl
  | tail hpre hstep ih =>
    obtain ⟨-, -, -, -, hmem, -, -⟩ := hg.step_facts hstep
    rcases ih with rfl | hym
    · exact Or.inr hmem
    · exact Or.inr (c.mem_anc_trans hym hmem)

theorem GInv.key_desc [DecidableEq H] {c : Chain H} {b : H} {g : VoteGraph H V}
    (hg : GInv c b g) : ∀ x, (lookupE g.entries x).isSome = true →
      x = b ∨ b ∈ c.anc x := by
  suffices hind : ∀ n x, c.num x < n → (lookupE g.entries x).isSome = true →
      x = b ∨ b ∈ c.anc x by
    intro x hx
    exact hind (c.num x + 1) x (Nat.lt_succ_self _) hx
  intro n
  induction n with
  | zero =>
    intro x hlt
    omega
  | succ n ih =>
    intro x hlt hx
    by_cases hb : x = b
    · exact Or.inl hb
    · obtain ⟨ex, he⟩ := Option.isSome_iff_exists.mp hx
      obtain ⟨-, hne, -, -, -⟩ := hg.wf x ex he hb
      have hL : 0 < ex.ancestors.length := List.length_pos.mpr hne
      have hp : ∃ p, ex.ancestor_node = some p := by
        rw [Entry.ancestor_node, List.getLast?_eq_getElem?]
        cases hgp : ex.ancestors[ex.ancestors.length - 1]? with
        | none =>
          rw [List.getElem?_eq_none_iff] at hgp
          omega
        | some p => exact ⟨p, rfl⟩
      obtain ⟨p, hp⟩ := hp
      obtain ⟨-, hmem, hnum, hkey⟩ := hg.anc_node_spec he hb hp
      rcases ih p (by omega) hkey with rfl | hbp
      · exact Or.inr hmem
      · exact Or.inr (c.mem_anc_trans hmem hbp)

/-- Every key on the chain of a key is backward-reachable from it along
ancestor-node links (the node chain covers all tracked ancestors). -/
theorem GInv.reaches_of_chain [DecidableEq H] {c : Chain H} {b : H} {g : VoteGraph H V}
    (hg : GInv c b g) : ∀ k x, (lookupE g.entries k).isSome = true →
      (lookupE g.entries x).isSome = true → (x = k ∨ x ∈ c.anc k) →
      Reaches g.entries k x := by
  suffices hind : ∀ n k x, c.num k < n → (lookupE g.entries k).isSome = true →
      (lookupE g.entries x).isSome = true → (x = k ∨ x ∈ c.anc k) →
      Reaches g.entries k x by
    intro k x hk hx hc
    exact hind (c.num k + 1) k x (Nat.lt_succ_self _) hk hx hc
  intro n
  induction n with
  | zero =>
    intro k x hlt
    omega
  | succ n ih =>
    intro k x hlt hk hx hc
    rcases hc with rfl | hmem
    · exact Relation.ReflTransGen.refl
    · have hkb : k ≠ b := by
        intro hc2
        subst hc2
        have hnx := c.num_lt_of_mem hmem
        rcases hg.key_desc x hx with rfl | hbx
        · omega
        · have := c.num_lt_of_mem hbx
          omega
      obtain ⟨ek, hek⟩ := Option.isSome_iff_exists.mp hk
      obtain ⟨hnumk, hne, -, -, hint⟩ := hg.wf k ek hek hkb
      set L := ek.ancestors.length with hLdef
      have hL : 0 < L := hLdef ▸ List.length_pos.mpr hne
      have hjpos := c.mem_getElem_pos hmem
      set j := c.num k - c.num x - 1 with hjdef
      by_cases hjL : j < L
      · have hjanc : ek.ancestors[j]? = some x := by
          rw [hg.ancestors_getElem hek hkb hjL]
          exact hjpos
        by_cases hjlast : j = L - 1
        · have hstep : stepTo g.entries k x := by
            unfold stepTo ancNodeOf
            rw [hek]
            simp only [Option.some_bind]
            rw [Entry.ancestor_node, List.getLast?_eq_getElem?, ← hLdef, ← hjlast]
            exact hjanc
          exact Relation.ReflTransGen.single hstep
        · exfalso
          have hxint : x ∈ ek.ancestors.dropLast := by
            rw [List.dropLast_eq_take]
            refine List.mem_iff_getElem?.mpr ⟨j, ?_⟩
            rw [List.getElem?_take]
            rw [if_pos (by omega : j < ek.ancestors.length - 1)]
            exact hjanc
          have := hint x hxint
          rw [this] at hx
          cases hx
      · have hp : ∃ p, ek.ancestor_node = some p := by
          rw [Entry.ancestor_node, List.getLast?_eq_getElem?]
          cases hgp : ek.ancestors[ek.ancestors.length - 1]? with
          | none =>
            rw [List.getElem?_eq_none_iff] at hgp
            omega
          | some p => exact ⟨p, rfl⟩
        obtain ⟨p, hp⟩ := hp
        obtain ⟨hpel, hpmem, hpnum, hpkey⟩ := hg.anc_node_spec hek hkb hp
        have hancp : c.anc p = (c.anc k).drop L := by
          have := c.anc_getElem (L - 1) k p (by rw [← hLdef] at hpel; exact hpel)
          rw [this]
          congr 1
          omega
        have hxp : x ∈ c.anc p := by
          rw [hancp]
          refine List.mem_iff_getElem?.mpr ⟨j - L, ?_⟩
          rw [List.getElem?_drop]
          have : L + (j - L) = j := by omega
          rw [this]
          exact hjpos
        have hstep : stepTo g.entries k p := by
          unfold stepTo ancNodeOf
          rw [hek]
          simp only [Option.some_bind]
          exact hp
        exact Relation.ReflTransGen.head hstep
          (ih p x (by omega) hpkey hx (Or.inr hxp))

/-- Every strict chain ancestor of a key that is itself at or above the base is
either tracked or lies strictly inside the ancestor edge of a vote-node
backward-reachable from the key. -/
theorem GInv.cover [DecidableEq H] {c : Chain H} {b : H} {g : VoteGraph H V}
    (hg : GInv c b g) : ∀ k x, (lookupE g.entries k).isSome = true →
      x ∈ c.anc k → (x = b ∨ b ∈ c.anc x) →
      (lookupE g.entries x).isSome = true ∨
      ∃ d ed, Reaches g.entries k d ∧ lookupE g.entries d = some ed ∧
        ed.in_direct_ancestry x (c.num x) = some true := by
  suffices hind : ∀ n k x, c.num k < n → (lookupE g.entries k).isSome = true →
      x ∈ c.anc k → (x = b ∨ b ∈ c.anc x) →
      (lookupE g.entries x).isSome = true ∨
      ∃ d ed, Reaches g.entries k d ∧ lookupE g.entries d = some ed ∧
        ed.in_direct_ancestry x (c.num x) = some true by
    intro k x hk hx hc
    exact hind (c.num k + 1) k x (Nat.lt_succ_self _) hk hx hc
  intro n
  induction n with
  | zero =>
    intro k x hlt
    omega
  | succ n ih =>
    intro k x hlt hk hmem hbx
    have hkb : k ≠ b := by
      intro hc2
      subst hc2
      have hnx := c.num_lt_of_mem hmem
      rcases hbx with rfl | hbx2
      · omega
      · have := c.num_lt_of_mem hbx2
        omega
    obtain ⟨ek, hek⟩ := Option.isSome_iff_exists.mp hk
    obtain ⟨hnumk, hne, -, -, hint⟩ := hg.wf k ek hek hkb
    set L := ek.ancestors.length with hLdef
    have hL : 0 < L := hLdef ▸ List.length_pos.mpr hne
    have hjpos := c.mem_getElem_pos hmem
    set j := c.num k - c.num x - 1 with hjdef
    by_cases hjL : j < L
    · have hjanc : ek.ancestors[j]? = some x := by
        rw [hg.ancestors_getElem hek hkb hjL]
        exact hjpos
      right
      refine ⟨k, ek, Relation.ReflTransGen.refl, hek, ?_⟩
      rw [ida_eq_some_true_iff]
      have hnx := c.num_lt_of_mem hmem
      constructor
      · omega
      · rw [hnumk]
        exact hjanc
    · have hp : ∃ p, ek.ancestor_node = some p := by
        rw [Entry.ancestor_node, List.getLast?_eq_getElem?]
        cases hgp : ek.ancestors[ek.ancestors.length - 1]? with
        | none =>
          rw [List.getElem?_eq_none_iff] at hgp
          omega
        | some p => exact ⟨p, rfl⟩
      obtain ⟨p, hp⟩ := hp
      obtain ⟨hpel, hpmem, hpnum, hpkey⟩ := hg.anc_node_spec hek hkb hp
      have hancp : c.anc p = (c.anc k).drop L := by
        have := c.anc_getElem (L - 1) k p (by rw [← hLdef] at hpel; exact hpel)
        rw [this]
        congr 1
        omega
      have hxp : x ∈ c.anc p := by
        rw [hancp]
        refine List.mem_iff_getElem?.mpr ⟨j - L, ?_⟩
        rw [List.getElem?_drop]
        have : L + (j - L) = j := by omega
        rw [this]
        exact hjpos
      have hstep : stepTo g.entries k p := by
        unfold stepTo ancNodeOf
        rw [hek]
        simp only [Option.some_bind]
        exact hp
      rcases ih p x (by omega) hpkey hxp hbx with hkey | ⟨d, ed, hrd, hed, hida⟩
      · exact Or.inl hkey
      · exact Or.inr ⟨d, ed, Relation.ReflTransGen.head hstep hrd, hed, hida⟩

/-- A block that is not itself tracked lies strictly inside the edge of at
most one vote-node reachable from any fixed key. -/
theorem GInv.cover_unique [DecidableEq H] {c : Chain H} {b : H} {g : VoteGraph H V}
    (hg : GInv c b g) {x k d1 d2 : H} {ed1 ed2 : Entry H V}
    (hx : lookupE g.entries x = none)
    (hr1 : Reaches g.entries k d1) (hed1 : lookupE g.entries d1 = some ed1)
    (hida1 : ed1.in_direct_ancestry x (c.num x) = some true)
    (hr2 : Reaches g.entries k d2) (hed2 : lookupE g.entries d2 = some ed2)
    (hida2 : ed2.in_direct_ancestry x (c.num x) = some true) : d1 = d2 := by
  have hstrict : ∀ {d : H} {ed : Entry H V}, lookupE g.entries d = some ed →
      ed.in_direct_ancestry x (c.num x) = some true →
      ∀ p, ancNodeOf g.entries d = some p → c.num p < c.num x := by
    intro d ed hed hida p hstep
    have hdb : d ≠ b := by
      intro hc
      subst hc
      obtain ⟨e0, he0, ha0, -⟩ := hg.base_entry
      rw [he0] at hed
      cases hed
      rw [ida_eq_some_true_iff] at hida
      obtain ⟨-, hget⟩ := hida
      rw [ha0] at hget
      cases hget
    obtain ⟨hnum, -, -, hlast, -⟩ := hg.wf d ed hed hdb
    rw [ida_eq_some_true_iff] at hida
    obtain ⟨hlt, hget⟩ := hida
    have hjlen : ed.number - c.num x - 1 < ed.ancestors.length := by
      by_contra hc
      push_neg at hc
      rw [List.getElem?_eq_none hc] at hget
      cases hget
    have hjne : ed.number - c.num x - 1 ≠ ed.ancestors.length - 1 := by
      intro hc
      have hgl : ed.ancestor_node = some x := by
        rw [Entry.ancestor_node, List.getLast?_eq_getElem?, ← hc]
        exact hget
      have := hlast x hgl
      rw [hx] at this
      cases this
    unfold ancNodeOf at hstep
    rw [hed] at hstep
    simp only [Option.some_bind] at hstep
    obtain ⟨-, -, hpnum, -⟩ := hg.anc_node_spec hed hdb hstep
    omega
  by_contra hne
  have hdesc : ∀ {a a2 : H} {ea : Entry H V}, Reaches g.entries a a2 → a ≠ a2 →
      lookupE g.entries a = some ea →
      ea.in_direct_ancestry x (c.num x) = some true →
      (lookupE g.entries a2).isSome = true → c.num a2 < c.num x := by
    intro a a2 ea hr hne2 hea hida hkey
    rcases Relation.ReflTransGen.cases_head hr with rfl | ⟨m, hm, hmr⟩
    · exact absurd rfl hne2
    · have hstep : ancNodeOf g.entries a = some m := hm
      have hmlt := hstrict hea hida m hstep
      have := hg.reaches_num hmr
      omega
  rcases reaches_comparable hr1 hr2 with h12 | h21
  · have := hdesc h12 hne hed1 hida1 (by rw [hed2]; rfl)
    rw [ida_eq_some_true_iff] at hida2
    have hn2 := hg.entry_number hed2
    omega
  · have := hdesc h21 (Ne.symm hne) hed2 hida2 (by rw [hed1]; rfl)
    rw [ida_eq_some_true_iff] at hida1
    have hn1 := hg.entry_number hed1
    omega

theorem cumWalk_keys [DecidableEq H] [Add V] :
    ∀ (fuel : Nat) (es : EntryMap H V) (h : H) (v : V) (es2 : EntryMap H V),
      cumWalk fuel es h v = some es2 → es2.map Prod.fst = es.map Prod.fst := by
  intro fuel
  induction fuel with
  | zero =>
    intro es h v es2 hw
    simp [cumWalk] at hw
  | succ n ih =>
    intro es h v es2 hw
    unfold cumWalk at hw
    cases he : lookupE es h with
    | none => rw [he] at hw; cases hw
    | some e =>
      rw [he] at hw
      simp only at hw
      cases ha : e.ancestor_node with
      | some parent =>
        rw [ha] at hw
        rw [ih _ _ _ _ hw, keys_updateE]
      | none =>
        rw [ha] at hw
        simp only [Option.some_inj] at hw
        rw [← hw, keys_updateE]

/-- The structural invariant only depends on the shape of the entries and on
the key list, so it transfers along cumulative-vote-only modifications. -/
theorem GInv_of_shape [DecidableEq H] {c : Chain H} {b : H} {g : VoteGraph H V}
    {es2 : EntryMap H V} (hs : ShapeEq g.entries es2)
    (hkeys : es2.map Prod.fst = g.entries.map Prod.fst) (hg : GInv c b g) :
    GInv c b { g with entries := es2 } := by
  have hsome : ∀ k, (lookupE es2 k).isSome = (lookupE g.entries k).isSome :=
    fun k => (hs.isSome k).symm
  have hstep : ∀ x y, stepTo g.entries x y ↔ stepTo es2 x y := by
    intro x y
    unfold stepTo ancNodeOf
    cases he : lookupE g.entries x with
    | none =>
      have h2 : lookupE es2 x = none := by
        have := hs.isSome x
        rw [he] at this
        cases hl : lookupE es2 x
        · rfl
        · rw [hl] at this
          cases this
      rw [h2]
    | some e =>
      obtain ⟨e2, he2, -, hanc, -⟩ := hs.entry he
      rw [he2]
      simp only [Option.some_bind]
      rw [Entry.ancestor_node, Entry.ancestor_node, hanc]
  have hentry_rev : ∀ {k : H} {e2 : Entry H V}, lookupE es2 k = some e2 →
      ∃ e, lookupE g.entries k = some e ∧ e.number = e2.number ∧
        e.ancestors = e2.ancestors ∧ e.descendents = e2.descendents := by
    intro k e2 he2
    have hk := hs k
    rw [he2] at hk
    cases h1 : lookupE g.entries k with
    | none => rw [h1] at hk; cases hk
    | some e =>
      rw [h1] at hk
      simp only [Option.map_some', Option.some_inj] at hk
      have hfields : e.number = e2.number ∧ e.ancestors = e2.ancestors ∧
          e.descendents = e2.descendents := by
        simpa [Entry.shape, Prod.ext_iff] using hk
      exact ⟨e, rfl, hfields.1, hfields.2.1, hfields.2.2⟩
  have hnone : ∀ k, lookupE g.entries k = none → lookupE es2 k = none := by
    intro k hk
    have := hs.isSome k
    rw [hk] at this
    cases hl : lookupE es2 k
    · rfl
    · rw [hl] at this
      cases this
  refine ⟨hg.base_eq, by rw [hkeys]; exact hg.keys_nodup, ?_, ?_, hg.heads_nodup, ?_, ?_⟩
  · obtain ⟨e, he, ha, hn⟩ := hg.base_entry
    obtain ⟨e2, he2, hn2, ha2, -⟩ := hs.entry he
    exact ⟨e2, he2, by rw [ha2, ha], by rw [hn2, hn]⟩
  · intro h e2 he2 hb
    obtain ⟨e, he, hn, ha, -⟩ := hentry_rev he2
    obtain ⟨w1, w2, w3, w4, w5⟩ := hg.wf h e he hb
    refine ⟨by rw [← hn]; exact w1, by rw [← ha]; exact w2, by rw [← ha]; exact w3, ?_, ?_⟩
    · intro a hga
      rw [← ha] at hga
      rw [hsome a]
      exact w4 a hga
    · intro x hx
      rw [← ha] at hx
      exact hnone x (w5 x hx)
  · intro h hh
    rw [hsome h]
    exact hg.heads_sub h hh
  · intro h hk
    rw [hsome h] at hk
    obtain ⟨hd, hhd, hr⟩ := hg.reach h hk
    refine ⟨hd, hhd, ?_⟩
    exact Relation.ReflTransGen.mono (fun x y hxy => (hstep x y).mp hxy) hr

/-- Walking one ancestor-node step preserves chain membership for every other
tracked key: the skipped edge interior contains no keys. -/
theorem GInv.chain_step_iff [DecidableEq H] {c : Chain H} {b : H} {g : VoteGraph H V}
    (hg : GInv c b g) {h parent k : H} (hs : stepTo g.entries h parent)
    (hk : (lookupE g.entries k).isSome = true) (hne : k ≠ h) :
    chainContains c h k = true ↔ chainContains c parent k = true := by
  obtain ⟨eh, heh, hanc, hhb, hpmem, hplt, hpkey⟩ := hg.step_facts hs
  obtain ⟨-, hne2, -, -, hint⟩ := hg.wf h eh heh hhb
  set L := eh.ancestors.length with hLdef
  have hL : 0 < L := hLdef ▸ List.length_pos.mpr hne2
  obtain ⟨hpel, -, hpnum, -⟩ := hg.anc_node_spec heh hhb hanc
  have hancp : c.anc parent = (c.anc h).drop L := by
    have := c.anc_getElem (L - 1) h parent (by rw [← hLdef] at hpel; exact hpel)
    rw [this]
    congr 1
    omega
  rw [chainContains_iff, chainContains_iff]
  constructor
  · rintro (rfl | hmem)
    · exact absurd rfl hne
    · have hjpos := c.mem_getElem_pos hmem
      set j := c.num h - c.num k - 1 with hjdef
      by_cases hjL : j < L
      · have hjanc : eh.ancestors[j]? = some k := by
          rw [hg.ancestors_getElem heh hhb hjL]
          exact hjpos
        by_cases hjlast : j = L - 1
        · left
          have : eh.ancestor_node = some k := by
            rw [Entry.ancestor_node, List.getLast?_eq_getElem?, ← hLdef, ← hjlast]
            exact hjanc
          rw [hanc] at this
          exact (Option.some_inj.mp this).symm
        · exfalso
          have hxint : k ∈ eh.ancestors.dropLast := by
            rw [List.dropLast_eq_take]
            refine List.mem_iff_getElem?.mpr ⟨j, ?_⟩
            rw [List.getElem?_take]
            rw [if_pos (by omega : j < eh.ancestors.length - 1)]
            exact hjanc
          have := hint k hxint
          rw [this] at hk
          cases hk
      · right
        rw [hancp]
        refine List.mem_iff_getElem?.mpr ⟨j - L, ?_⟩
        rw [List.getElem?_drop]
        have : L + (j - L) = j := by omega
        rw [this]
        exact hjpos
  · rintro (rfl | hmem)
    · exact Or.inr hpmem
    · exact Or.inr (c.mem_anc_trans hpmem hmem)

/-- Completeness of `find_containing_nodes` on a well-formed graph: every
vote-node whose direct ancestry contains the target is collected. -/
theorem GInv.containing_complete [DecidableEq H] {c : Chain H} {b : H}
    {g : VoteGraph H V} (hg : GInv c b g) {hash : H} {n : Nat} {L : List H}
    (hfcn : g.find_containing_nodes hash n = some (some L)) :
    ∀ k e, lookupE g.entries k = some e →
      e.in_direct_ancestry hash n = some true → k ∈ L := by
  obtain ⟨-, hsome⟩ := find_containing_nodes_spec g hash n _ hfcn
  obtain ⟨hfresh, -, -, vsF, hheadsmem, hclosed, hiff⟩ := hsome L rfl
  have hcl := hclosed hg.anckeys
  intro k e hke htrue
  obtain ⟨hd, hhd, hr⟩ := hg.reach k (by rw [hke]; rfl)
  have hwalk : ∀ x, Reaches g.entries x k → x ∈ vsF → k ∈ vsF := by
    intro x hxk
    induction hxk using Relation.ReflTransGen.head_induction_on with
    | refl => exact fun hh => hh
    | head hstep htail ih =>
      rename_i a a2
      intro hav
      obtain ⟨ea, hea, hancnode, hab, -, -, -⟩ := hg.step_facts hstep
      have hnone : ea.in_direct_ancestry hash n = none := by
        rw [ida_eq_none_iff]
        rw [ida_eq_some_true_iff] at htrue
        have hek_num := hg.entry_number hke
        have hea_num := hg.entry_number hea
        have h2 := hg.reaches_num htail
        obtain ⟨-, -, hpnum, -⟩ := hg.anc_node_spec hea hab hancnode
        right
        omega
      exact ih (hcl a hav ea hea hnone a2 hancnode)
  have hkv : k ∈ vsF := hwalk hd hr (hheadsmem hd hhd (hg.heads_sub hd hhd))
  exact (hiff k).mpr ⟨hkv, e, hke, htrue⟩

/-- Value specification of the weight walk: on a well-formed graph it adds the
vote to exactly the entries whose block lies on the chain of the starting
key. -/
theorem cumWalk_spec [DecidableEq H] [Zero V] [Add V] {c : Chain H} {b : H} :
    ∀ (fuel : Nat) (g : VoteGraph H V) (h : H) (v : V) (es2 : EntryMap H V),
      GInv c b g → (lookupE g.entries h).isSome = true →
      cumWalk fuel g.entries h v = some es2 →
      ∀ k e, lookupE g.entries k = some e →
        lookupE es2 k = some (if chainContains c h k = true
          then { e with cumulative_vote := e.cumulative_vote + v } else e) := by
  intro fuel
  induction fuel with
  | zero =>
    intro g h v es2 hg hkey hw
    simp [cumWalk] at hw
  | succ n ih =>
    intro g h v es2 hg hkey hw
    unfold cumWalk at hw
    cases he : lookupE g.entries h with
    | none => rw [he] at hw; cases hw
    | some eh =>
      rw [he] at hw
      simp only at hw
      set es1 := updateE g.entries h
        (fun e0 => { e0 with cumulative_vote := e0.cumulative_vote + v }) with hes1
      have hlook1 : ∀ k e, lookupE g.entries k = some e →
          lookupE es1 k = some (if k = h
            then { e with cumulative_vote := e.cumulative_vote + v } else e) := by
        intro k e hke
        rw [hes1, lookupE_updateE]
        by_cases hkh : k = h
        · subst hkh
          rw [if_pos rfl, if_pos rfl, hke]
          rfl
        · rw [if_neg hkh, if_neg hkh, hke]
      cases ha : eh.ancestor_node with
      | none =>
        rw [ha] at hw
        simp only [Option.some_inj] at hw
        subst hw
        -- the walk stopped: `h` is the base
        have hhb : h = b := by
          by_contra hhb
          obtain ⟨-, hne2, -, -, -⟩ := hg.wf h eh he hhb
          cases hl : eh.ancestors with
          | nil => exact hne2 hl
          | cons x xs =>
            rw [Entry.ancestor_node, hl, List.getLast?_eq_getElem?] at ha
            rw [List.getElem?_eq_none_iff] at ha
            simp at ha
        subst hhb
        intro k e hke
        by_cases hkh : k = h
        · subst hkh
          rw [hlook1 k e hke, if_pos rfl, if_pos (chainContains_self c k)]
        · have hcc : chainContains c h k = false := by
            by_contra hcc
            simp only [Bool.not_eq_false] at hcc
            rw [chainContains_iff] at hcc
            rcases hcc with rfl | hmem
            · exact hkh rfl
            · have h1 := c.num_lt_of_mem hmem
              rcases hg.key_desc k (by rw [hke]; rfl) with rfl | hbk
              · omega
              · have := c.num_lt_of_mem hbk
                omega
          rw [hlook1 k e hke, if_neg hkh, hcc]
          simp
      | some parent =>
        rw [ha] at hw
        have hstep : stepTo g.entries h parent := by
          unfold stepTo ancNodeOf
          rw [he]
          simp only [Option.some_bind]
          exact ha
        have hg1 : GInv c b { g with entries := es1 } :=
          GInv_of_shape (shapeEq_updateE_cum g.entries h (fun x => x + v))
            (keys_updateE _ _ _) hg
        have hpkey : (lookupE es1 parent).isSome = true := by
          obtain ⟨-, -, -, -, -, -, h0⟩ := hg.step_facts hstep
          have := (shapeEq_updateE_cum g.entries h
            (fun x => x + v)).isSome parent
          rw [← this]
          exact h0
        have hres := ih { g with entries := es1 } parent v es2 hg1 hpkey hw
        intro k e hke
        by_cases hkh : k = h
        · subst hkh
          have h1 := hlook1 k e hke
          rw [if_pos rfl] at h1
          have h2 := hres k _ h1
          have hcc2 : chainContains c parent k = false := by
            by_contra hcc
            simp only [Bool.not_eq_false] at hcc
            rw [chainContains_iff] at hcc
            obtain ⟨-, -, -, -, -, hlt, -⟩ := hg.step_facts hstep
            rcases hcc with rfl | hmem
            · omega
            · have := c.num_lt_of_mem hmem
              omega
          rw [hcc2] at h2
          simp only [Bool.false_eq_true, if_false] at h2
          rw [h2, if_pos (chainContains_self c k)]
        · have h1 := hlook1 k e hke
          rw [if_neg hkh] at h1
          have h2 := hres k e h1
          have hiff := hg.chain_step_iff hstep (by rw [hke]; rfl) hkh
          by_cases hcc : chainContains c h k = true
          · rw [if_pos hcc]
            rw [hiff] at hcc
            rw [hcc] at h2
            simpa using h2
          · simp only [Bool.not_eq_true] at hcc
            rw [hcc]
            simp only [Bool.false_eq_true, if_false]
            have hcp : chainContains c parent k = false := by
              by_contra hcp
              simp only [Bool.not_eq_false] at hcp
              rw [← hiff] at hcp
              rw [hcp] at hcc
              cases hcc
            rw [hcp] at h2
            simpa using h2

/-! ## Sum rearrangement lemmas -/

theorem sum_map_zero {α : Type} [AddCommMonoid V] (M : List α) :
    (M.map (fun _ => (0 : V))).sum = 0 := by
  induction M with
  | nil => rfl
  | cons a rest ih => simp [ih]

theorem sum_map_add {α : Type} [AddCommMonoid V] (M : List α) (f g : α → V) :
    (M.map (fun a => f a + g a)).sum = (M.map f).sum + (M.map g).sum := by
  induction M with
  | nil => simp
  | cons a rest ih =>
    simp only [List.map_cons, List.sum_cons, ih]
    abel

theorem sum_filter_eq_sum_ite {α : Type} [AddCommMonoid V] (M : List α) (p : α → Bool)
    (w : α → V) :
    ((M.filter p).map w).sum = (M.map (fun a => if p a then w a else 0)).sum := by
  induction M with
  | nil => rfl
  | cons a rest ih =>
    by_cases hp : p a
    · rw [List.filter_cons_of_pos hp]
      simp [hp, ih]
    · rw [List.filter_cons_of_neg hp]
      simp only [List.map_cons, List.sum_cons, ih]
      simp [hp]

theorem sum_swap {α β : Type} [AddCommMonoid V] (L : List α) (M : List β)
    (f : α → β → V) :
    (L.map (fun d => (M.map (f d)).sum)).sum =
      (M.map (fun a => (L.map (fun d => f d a)).sum)).sum := by
  induction L with
  | nil =>
    simp only [List.map_nil, List.sum_nil]
    exact (sum_map_zero M).symm
  | cons d L ih =>
    simp only [List.map_cons, List.sum_cons]
    rw [ih, ← sum_map_add M (fun a => f d a) (fun a => (L.map (fun d2 => f d2 a)).sum)]

theorem filter_eq_single {α : Type} (L : List α) (p : α → Bool) (d0 : α)
    (hnodup : L.Nodup) (hd0 : d0 ∈ L) (hp : ∀ d ∈ L, p d = true ↔ d = d0) :
    L.filter p = [d0] := by
  induction L with
  | nil => cases hd0
  | cons a rest ih =>
    have hanodup := (List.nodup_cons.mp hnodup).1
    have hrest := (List.nodup_cons.mp hnodup).2
    by_cases ha : a = d0
    · subst ha
      rw [List.filter_cons_of_pos ((hp a (List.mem_cons_self _ _)).mpr rfl)]
      congr 1
      rw [List.filter_eq_nil_iff]
      intro d hd hc
      have := (hp d (List.mem_cons_of_mem _ hd)).mp hc
      exact hanodup (this ▸ hd)
    · have hd0r : d0 ∈ rest := by
        rcases List.mem_cons.mp hd0 with rfl | hm
        · exact absurd rfl ha
        · exact hm
      rw [List.filter_cons_of_neg]
      · exact ih hrest hd0r (fun d hd => hp d (List.mem_cons_of_mem _ hd))
      · intro hc
        exact ha ((hp a (List.mem_cons_self _ _)).mp hc)

theorem foldl_add_eq_sum {α : Type} [AddCommMonoid V] (l : List α) (f : α → V) :
    ∀ init : V, l.foldl (fun acc d => acc + f d) init = init + (l.map f).sum := by
  induction l with
  | nil => intro init; simp
  | cons a rest ih =>
    intro init
    simp only [List.foldl_cons, List.map_cons, List.sum_cons, ih]
    rw [add_assoc]

theorem voteSum_nil [DecidableEq H] [AddCommMonoid V] (c : Chain H) (x : H) :
    voteSum c ([] : List (H × Nat × V)) x = 0 := rfl

theorem voteSum_snoc [DecidableEq H] [AddCommMonoid V] (c : Chain H)
    (votes : List (H × Nat × V)) (vt : H × Nat × V) (x : H) :
    voteSum c (votes ++ [vt]) x =
      voteSum c votes x + (if chainContains c vt.1 x = true then vt.2.2 else 0) := by
  unfold voteSum
  rw [List.filter_append, List.map_append, List.sum_append]
  congr 1
  rw [List.filter_singleton]
  by_cases hc : chainContains c vt.1 x
  · simp [hc]
  · simp [hc]

theorem voteSum_perm [DecidableEq H] [AddCommMonoid V] (c : Chain H)
    {votes1 votes2 : List (H × Nat × V)} (hp : votes1.Perm votes2) (x : H) :
    voteSum c votes1 x = voteSum c votes2 x :=
  ((hp.filter _).map _).sum_eq

/-- The key partition identity of `introduce_branch`: on a well-formed graph
whose cumulative votes agree with `voteSum`, the sum of the containing nodes'
cumulative votes is the vote-sum of the new branch block. -/
theorem branch_cum_eq [DecidableEq H] [AddCommMonoid V] {c : Chain H} {b : H}
    {g : VoteGraph H V} (hg : GInv c b g) (votes : List (H × Nat × V))
    (hkeys : ∀ v ∈ votes, (lookupE g.entries v.1).isSome = true)
    (hcum : ∀ k e, lookupE g.entries k = some e → e.cumulative_vote = voteSum c votes k)
    {L : List H} {hash : H} (hfresh : lookupE g.entries hash = none)
    (hbx : b ∈ c.anc hash) (hLnodup : L.Nodup)
    (hLsound : ∀ d ∈ L, ∃ e, lookupE g.entries d = some e ∧
      e.in_direct_ancestry hash (c.num hash) = some true)
    (hLcomplete : ∀ k e, lookupE g.entries k = some e →
      e.in_direct_ancestry hash (c.num hash) = some true → k ∈ L) :
    (L.map (fun d => cumOf g.entries d)).sum = voteSum c votes hash := by
  -- pointwise: each containing node's cumulative vote is its vote-sum
  have hstep1 : L.map (fun d => cumOf g.entries d) =
      L.map (fun d => voteSum c votes d) := by
    apply List.map_congr_left
    intro d hd
    obtain ⟨ed, hed, -⟩ := hLsound d hd
    rw [cumOf, hed]
    simp only [Option.map_some', Option.getD_some]
    exact hcum d ed hed
  -- membership fact: the branch block lies on the chain of every containing node
  have hmemanc : ∀ d ∈ L, hash ∈ c.anc d := by
    intro d hd
    obtain ⟨ed, hed, hida⟩ := hLsound d hd
    rw [ida_eq_some_true_iff] at hida
    obtain ⟨hlt, hget⟩ := hida
    have hdb : d ≠ b := by
      intro hc
      subst hc
      obtain ⟨e0, he0, ha0, -⟩ := hg.base_entry
      rw [he0] at hed
      cases hed
      rw [ha0] at hget
      cases hget
    have hjlen : ed.number - c.num hash - 1 < ed.ancestors.length := by
      by_contra hc
      push_neg at hc
      rw [List.getElem?_eq_none hc] at hget
      cases hget
    rw [hg.ancestors_getElem hed hdb hjlen] at hget
    exact List.mem_iff_getElem?.mpr ⟨_, hget⟩
  rw [hstep1]
  -- expand each voteSum as a sum of guarded weights and swap the two sums
  have hstep2 : L.map (fun d => voteSum c votes d) =
      L.map (fun d => (votes.map
        (fun v => if chainContains c v.1 d then v.2.2 else 0)).sum) := by
    apply List.map_congr_left
    intro d _
    rw [voteSum, sum_filter_eq_sum_ite]
  rw [hstep2, sum_swap]
  -- per vote: the inner sum collapses to the guard at the branch block
  have hstep3 : votes.map (fun v =>
        (L.map (fun d => if chainContains c v.1 d then v.2.2 else 0)).sum) =
      votes.map (fun v => if chainContains c v.1 hash then v.2.2 else 0) := by
    apply List.map_congr_left
    intro v hv
    have hvkey := hkeys v hv
    by_cases hvc : chainContains c v.1 hash = true
    · rw [if_pos hvc]
      -- existence of the unique containing node on this vote's chain
      have hne : hash ≠ v.1 := by
        intro hc
        rw [hc] at hfresh
        rw [hfresh] at hvkey
        cases hvkey
      have hmem : hash ∈ c.anc v.1 := by
        rw [chainContains_iff] at hvc
        rcases hvc with hc | hc
        · exact absurd hc hne
        · exact hc
      rcases hg.cover v.1 hash hvkey hmem (Or.inr hbx) with hkey2 | ⟨d, ed, hrd, hed, hida⟩
      · rw [hfresh] at hkey2
        cases hkey2
      · have hdL : d ∈ L := hLcomplete d ed hed hida
        have hchain_d : chainContains c v.1 d = true := by
          rw [chainContains_iff]
          exact hg.reaches_chain hrd
        have huniq : ∀ d2 ∈ L, chainContains c v.1 d2 = true → d2 = d := by
          intro d2 hd2 hc2
          obtain ⟨ed2, hed2, hida2⟩ := hLsound d2 hd2
          have hr2 : Reaches g.entries v.1 d2 := by
            rw [chainContains_iff] at hc2
            exact hg.reaches_of_chain v.1 d2 hvkey (by rw [hed2]; rfl) hc2
          exact hg.cover_unique hfresh hr2 hed2 hida2 hrd hed hida
        have hfilter : L.filter (fun d2 => chainContains c v.1 d2) = [d] := by
          refine filter_eq_single L _ d hLnodup hdL ?_
          intro d2 hd2
          constructor
          · exact huniq d2 hd2
          · rintro rfl
            exact hchain_d
        have := sum_filter_eq_sum_ite L (fun d2 => chainContains c v.1 d2)
          (fun _ => v.2.2) (V := V)
        rw [← this, hfilter]
        simp
    · simp only [Bool.not_eq_true] at hvc
      rw [hvc]
      simp only [Bool.false_eq_true, if_false]
      have hallfalse : ∀ d ∈ L, chainContains c v.1 d = false := by
        intro d hd
        by_contra hc
        simp only [Bool.not_eq_false] at hc
        have hmem := hmemanc d hd
        rw [chainContains_iff] at hc
        have : chainContains c v.1 hash = true := by
          rw [chainContains_iff]
          rcases hc with rfl | hdm
          · exact Or.inr hmem
          · exact Or.inr (c.mem_anc_trans hdm hmem)
        cases this.symm.trans hvc
      have hzero : L.map (fun d => if chainContains c v.1 d then v.2.2 else (0 : V)) =
          L.map (fun _ => (0 : V)) := by
        apply List.map_congr_left
        intro d hd
        rw [hallfalse d hd]
        simp
      rw [hzero, sum_map_zero]
  rw [hstep3, voteSum, sum_filter_eq_sum_ite]

/-! ## Preservation of the full invariant (claims C1 and C9) -/

theorem take_len_eq {α : Type} (l : List α) (n : Nat) :
    l.take n = l.take (l.take n).length := by
  rw [List.length_take]
  rcases Nat.le_total n l.length with h | h
  · rw [Nat.min_eq_left h]
  · rw [Nat.min_eq_right h, List.take_length, List.take_of_length_le h]

theorem getLast?_drop_of_lt {α : Type} (l : List α) (m : Nat) (h : m < l.length) :
    (l.drop m).getLast? = l.getLast? := by
  rw [List.getLast?_eq_getElem?, List.getLast?_eq_getElem?, List.length_drop,
    List.getElem?_drop]
  congr 1
  omega

theorem dropLast_drop_subset {α : Type} (l : List α) (m : Nat) :
    (l.drop m).dropLast ⊆ l.dropLast := by
  intro x hx
  rw [List.dropLast_eq_take] at hx ⊢
  obtain ⟨j, hj⟩ := List.mem_iff_getElem?.mp hx
  have hjlt : j < (l.drop m).length - 1 := by
    by_contra hc
    push_neg at hc
    rw [List.getElem?_eq_none] at hj
    · cases hj
    · rw [List.length_take, List.length_drop]
      rw [List.length_drop] at hc
      omega
  rw [List.getElem?_take_of_lt hjlt, List.getElem?_drop] at hj
  refine List.mem_iff_getElem?.mpr ⟨m + j, ?_⟩
  rw [List.length_drop] at hjlt
  rw [List.getElem?_take_of_lt (by omega : m + j < l.length - 1)]
  exact hj

/-- On a well-formed graph, a fresh block reported by `find_containing_nodes`
as contained in exactly the nodes of `L` appears inside an entry's ancestor
edge only if that entry is listed in `L`. -/
theorem fresh_not_in_interior [DecidableEq H] [Zero V] {c : Chain H} {b : H}
    {g : VoteGraph H V} (hg : GInv c b g) {hash : H} {L : List H}
    (hfcn : g.find_containing_nodes hash (c.num hash) = some (some L)) :
    ∀ h e, lookupE g.entries h = some e → hash ∈ e.ancestors → h ∈ L := by
  intro h e he hmem
  have hb : h ≠ b := by
    intro hc
    subst hc
    obtain ⟨e0, he0, ha0, -⟩ := hg.base_entry
    rw [he0] at he
    cases he
    rw [ha0] at hmem
    cases hmem
  obtain ⟨j, hj⟩ := List.mem_iff_getElem?.mp hmem
  have hjlt : j < e.ancestors.length := by
    by_contra hc
    push_neg at hc
    rw [List.getElem?_eq_none hc] at hj
    cases hj
  have hjc : (c.anc h)[j]? = some hash := by
    rw [← hg.ancestors_getElem he hb hjlt]
    exact hj
  have hnum := c.num_getElem j h hash hjc
  have henum := hg.entry_number he
  have hida : e.in_direct_ancestry hash (c.num hash) = some true := by
    rw [ida_eq_some_true_iff]
    refine ⟨by omega, ?_⟩
    have hoff : e.number - c.num hash - 1 = j := by omega
    rw [hoff]
    exact hj
  exact hg.containing_complete hfcn h e he hida

/-- A fresh block reported as contained in no vote-node has vote-sum zero when
all the inserted votes sit on tracked keys. -/
theorem voteSum_fresh_nil [DecidableEq H] [AddCommMonoid V] {c : Chain H} {b : H}
    {g : VoteGraph H V} (hg : GInv c b g) {votes : List (H × Nat × V)}
    (hkeys : ∀ v ∈ votes, (lookupE g.entries v.1).isSome = true)
    {hash : H} (hfresh : lookupE g.entries hash = none)
    (hbx : b ∈ c.anc hash)
    (hfcn : g.find_containing_nodes hash (c.num hash) = some (some [])) :
    voteSum c votes hash = 0 := by
  unfold voteSum
  have hfe : votes.filter (fun v => chainContains c v.1 hash) = [] := by
    rw [List.filter_eq_nil_iff]
    intro v hv hcc
    have hcc2 : chainContains c v.1 hash = true := hcc
    have hvkey := hkeys v hv
    rw [chainContains_iff] at hcc2
    rcases hcc2 with hc | hmem
    · rw [← hc] at hvkey
      rw [hfresh] at hvkey
      cases hvkey
    · rcases hg.cover v.1 hash hvkey hmem (Or.inr hbx) with hkey2 | ⟨d, ed, -, hed, hida⟩
      · rw [hfresh] at hkey2
        cases hkey2
      · exact absurd (hg.containing_complete hfcn d ed hed hida) (List.not_mem_nil d)
  rw [hfe]
  rfl

/-- The fresh graph satisfies the full invariant for the empty vote list. -/
theorem GoodGraph_new [DecidableEq H] [AddCommMonoid V] (c : Chain H) (b : H) :
    GoodGraph c b ([] : List (H × Nat × V)) (VoteGraph.new b (c.num b)) := by
  have hlook : ∀ k : H, lookupE (VoteGraph.new b (c.num b) : VoteGraph H V).entries k =
      if k = b then some (⟨c.num b, [], [], (0 : V)⟩ : Entry H V) else none := by
    intro k
    show lookupE [(b, _)] k = _
    rw [lookupE_cons]
    by_cases hk : k = b
    · rw [if_pos hk, if_pos hk]
    · rw [if_neg hk, if_neg hk]
      rfl
  unfold GoodGraph
  refine ⟨⟨rfl, ?_, ?_, ?_, ?_, ?_, ?_⟩, ?_, ?_⟩
  · show ([(b, _)].map Prod.fst).Nodup
    simp
  · refine ⟨⟨c.num b, [], [], (0 : V)⟩, ?_, rfl, rfl⟩
    rw [hlook b, if_pos rfl]
  · intro h e he hb
    rw [hlook h, if_neg hb] at he
    cases he
  · exact List.nodup_singleton b
  · intro h hh
    have hb : h = b := List.mem_singleton.mp hh
    rw [hlook h, if_pos hb]
    rfl
  · intro h hk
    have hb : h = b := by
      by_contra hc
      rw [hlook h, if_neg hc] at hk
      cases hk
    subst hb
    exact ⟨h, List.mem_singleton.mpr rfl, Relation.ReflTransGen.refl⟩
  · intro v hv
    cases hv
  · intro k e he
    have hb : k = b := by
      by_contra hc
      rw [hlook k, if_neg hc] at he
      cases he
    subst hb
    rw [hlook k, if_pos rfl] at he
    cases he
    rfl

/-- `append` preserves the full invariant: the appended fresh node starts with
cumulative vote zero, which is its vote-sum. -/
theorem append_good [DecidableEq H] [AddCommMonoid V] {c : Chain H} {b : H}
    {g g1 : VoteGraph H V} {votes : List (H × Nat × V)} {hash : H} {number : Nat}
    (hg : GInv c b g)
    (hkeys : ∀ v ∈ votes, (lookupE g.entries v.1).isSome = true)
    (hcum : ∀ k e, lookupE g.entries k = some e → e.cumulative_vote = voteSum c votes k)
    (hnum : number = c.num hash)
    (hfcn : g.find_containing_nodes hash number = some (some []))
    (hrun : g.append hash number c.ancestry = some g1) :
    GInv c b g1 ∧ (lookupE g1.entries hash).isSome = true ∧
    (∀ v ∈ votes, (lookupE g1.entries v.1).isSome = true) ∧
    (∀ k e, lookupE g1.entries k = some e → e.cumulative_vote = voteSum c votes k) := by
  subst hnum
  obtain ⟨-, hsome⟩ := find_containing_nodes_spec g hash (c.num hash) _ hfcn
  obtain ⟨hfresh, -, -, -⟩ := hsome [] rfl
  have hnh : hash ∉ g.heads := by
    intro hc
    have := hg.heads_sub hash hc
    rw [hfresh] at this
    cases this
  obtain ⟨ancestry, i, ahash, hanc_eq, hai, hakey, hmin, hane, hbase1, hheads1, hkeys1,
    hunch, hupd, hentry⟩ := append_spec g g1 hash (c.num hash) c.ancestry hrun hfresh hnh
  rw [hg.base_eq] at hanc_eq
  obtain ⟨hbmem, hanc_val⟩ := c.ancestry_some hanc_eq
  have hbne : b ≠ hash := by
    intro hc
    obtain ⟨e0, he0, -, -⟩ := hg.base_entry
    rw [hc, hfresh] at he0
    cases he0
  have hile : i < ancestry.length := by
    by_contra hc
    push_neg at hc
    rw [List.getElem?_eq_none hc] at hai
    cases hai
  have hidx : (c.anc hash).indexOf b < (c.anc hash).length :=
    List.indexOf_lt_length.mpr hbmem
  have hlen : ancestry.length = (c.anc hash).indexOf b + 1 := by
    rw [hanc_val, List.length_take]
    omega
  have hanc_elem : ∀ j, j < ancestry.length → ancestry[j]? = (c.anc hash)[j]? := by
    intro j hj
    rw [hanc_val]
    exact List.getElem?_take_of_lt (by omega)
  have hai_anc : (c.anc hash)[i]? = some ahash := by
    rw [← hanc_elem i hile]
    exact hai
  have hanum : c.num ahash + i + 1 = c.num hash := c.num_getElem i hash ahash hai_anc
  -- the new entry's ancestor edge
  have htake : ancestry.take (i + 1) = (c.anc hash).take (i + 1) := by
    rw [hanc_val, List.take_take]
    congr 1
    omega
  have htakelen : (ancestry.take (i + 1)).length = i + 1 := by
    rw [List.length_take]
    omega
  have hlast_new : (ancestry.take (i + 1)).getLast? = some ahash := by
    rw [List.getLast?_eq_getElem?, htakelen]
    simp only [Nat.add_sub_cancel]
    rw [List.getElem?_take_of_lt (Nat.lt_succ_self i)]
    exact hai
  -- key / none transfer
  have hkey_up : ∀ x, (lookupE g.entries x).isSome = true →
      (lookupE g1.entries x).isSome = true := by
    intro x hx
    rw [isKey_iff_mem_keys] at hx ⊢
    rw [hkeys1]
    exact List.mem_append_left _ hx
  have hnone_up : ∀ x, lookupE g.entries x = none → x ≠ hash →
      lookupE g1.entries x = none := by
    intro x hx hxh
    have hxa : x ≠ ahash := by
      intro hc
      subst hc
      rw [hx] at hakey
      cases hakey
    rw [hunch x hxh hxa]
    exact hx
  have hnoedge : ∀ h e, lookupE g.entries h = some e → hash ∉ e.ancestors := by
    intro h e he hc
    exact absurd (fresh_not_in_interior hg hfcn h e he hc) (List.not_mem_nil h)
  have hstep_up : ∀ x y, stepTo g.entries x y → stepTo g1.entries x y := by
    intro x y hs
    unfold stepTo ancNodeOf at hs ⊢
    cases hex : lookupE g.entries x with
    | none => rw [hex] at hs; cases hs
    | some ex =>
      rw [hex] at hs
      simp only [Option.some_bind] at hs
      have hxh : x ≠ hash := by
        intro hc
        rw [hc, hfresh] at hex
        cases hex
      by_cases hxa : x = ahash
      · subst hxa
        rw [hupd ex hex]
        simp only [Option.some_bind]
        exact hs
      · rw [hunch x hxh hxa, hex]
        simp only [Option.some_bind]
        exact hs
  have hg1 : GInv c b g1 := by
    refine ⟨?_, ?_, ?_, ?_, ?_, ?_, ?_⟩
    · rw [hbase1, hg.base_eq]
    · rw [hkeys1, List.nodup_append]
      refine ⟨hg.keys_nodup, List.nodup_singleton _, ?_⟩
      intro x hx hx2
      have hxh : x = hash := List.mem_singleton.mp hx2
      subst hxh
      rw [← isKey_iff_mem_keys, hfresh] at hx
      cases hx
    · obtain ⟨e0, he0, ha0, hn0⟩ := hg.base_entry
      by_cases hba : b = ahash
      · subst hba
        refine ⟨{ e0 with descendents := e0.descendents ++ [hash] }, ?_, ha0, hn0⟩
        exact hupd e0 he0
      · refine ⟨e0, ?_, ha0, hn0⟩
        rw [hunch b hbne hba]
        exact he0
    · intro h e he1 hb1
      by_cases hh : h = hash
      · subst hh
        rw [hentry] at he1
        obtain rfl := Option.some_inj.mp he1
        dsimp only
        refine ⟨rfl, ?_, ?_, ?_, ?_⟩
        · intro hc
          have := congrArg List.length hc
          rw [htakelen] at this
          cases this
        · rw [htakelen]
          exact htake
        · intro a ha
          rw [hlast_new] at ha
          obtain rfl := Option.some_inj.mp ha
          obtain ⟨ea, hea⟩ := Option.isSome_iff_exists.mp hakey
          rw [hupd ea hea]
          rfl
        · intro x hx
          rw [List.dropLast_eq_take, htakelen] at hx
          simp only [Nat.add_sub_cancel] at hx
          obtain ⟨j, hj⟩ := List.mem_iff_getElem?.mp hx
          have hji : j < i := by
            by_contra hc
            push_neg at hc
            rw [List.getElem?_eq_none] at hj
            · cases hj
            · rw [List.length_take, htakelen]
              omega
          rw [List.getElem?_take_of_lt hji, List.getElem?_take_of_lt (by omega : j < i + 1)]
            at hj
          have hxnone := hmin j x hji hj
          have hxh : x ≠ h := by
            intro hc
            have hxc : (c.anc h)[j]? = some x := by
              rw [← hanc_elem j (by omega)]
              exact hj
            have := c.num_getElem j h x hxc
            rw [hc] at this
            omega
          exact hnone_up x hxnone hxh
      · by_cases hha : h = ahash
        · subst hha
          obtain ⟨ea, hea⟩ := Option.isSome_iff_exists.mp hakey
          rw [hupd ea hea] at he1
          obtain rfl := Option.some_inj.mp he1
          obtain ⟨w1, w2, w3, w4, w5⟩ := hg.wf h ea hea hb1
          refine ⟨w1, w2, w3, ?_, ?_⟩
          · intro a ha
            exact hkey_up a (w4 a ha)
          · intro x hx
            have hxh : x ≠ hash := by
              intro hc
              subst hc
              exact hnoedge h ea hea (List.dropLast_subset _ hx)
            exact hnone_up x (w5 x hx) hxh
        · rw [hunch h hh hha] at he1
          obtain ⟨w1, w2, w3, w4, w5⟩ := hg.wf h e he1 hb1
          refine ⟨w1, w2, w3, ?_, ?_⟩
          · intro a ha
            exact hkey_up a (w4 a ha)
          · intro x hx
            have hxh : x ≠ hash := by
              intro hc
              subst hc
              exact hnoedge h e he1 (List.dropLast_subset _ hx)
            exact hnone_up x (w5 x hx) hxh
    · rw [hheads1]
      refine List.Nodup.cons ?_ (hg.heads_nodup.erase ahash)
      intro hc
      exact hnh (List.mem_of_mem_erase hc)
    · intro h hh
      rw [hheads1] at hh
      rcases List.mem_cons.mp hh with rfl | hh2
      · rw [hentry]
        rfl
      · exact hkey_up h (hg.heads_sub h (List.mem_of_mem_erase hh2))
    · intro k hk1
      by_cases hkh : k = hash
      · subst hkh
        refine ⟨k, ?_, Relation.ReflTransGen.refl⟩
        rw [hheads1]
        exact List.mem_cons_self _ _
      · have hk0 : (lookupE g.entries k).isSome = true := by
          rw [isKey_iff_mem_keys] at hk1 ⊢
          rw [hkeys1] at hk1
          rcases List.mem_append.mp hk1 with h1 | h2
          · exact h1
          · exact absurd (List.mem_singleton.mp h2) hkh
        obtain ⟨hd, hhd, hr⟩ := hg.reach k hk0
        have hr1 : Reaches g1.entries hd k :=
          Relation.ReflTransGen.mono (fun x y hxy => hstep_up x y hxy) hr
        by_cases hda : hd = ahash
        · subst hda
          refine ⟨hash, by rw [hheads1]; exact List.mem_cons_self _ _, ?_⟩
          refine Relation.ReflTransGen.head ?_ hr1
          unfold stepTo ancNodeOf
          rw [hentry]
          simp only [Option.some_bind]
          show (ancestry.take (i + 1)).getLast? = some hd
          exact hlast_new
        · refine ⟨hd, ?_, hr1⟩
          rw [hheads1]
          exact List.mem_cons_of_mem _ ((List.mem_erase_of_ne hda).mpr hhd)
  refine ⟨hg1, by rw [hentry]; rfl, ?_, ?_⟩
  · intro v hv
    exact hkey_up v.1 (hkeys v hv)
  · intro k e he1
    by_cases hkh : k = hash
    · subst hkh
      rw [hentry] at he1
      obtain rfl := Option.some_inj.mp he1
      show (0 : V) = voteSum c votes k
      exact (voteSum_fresh_nil hg hkeys hfresh hbmem hfcn).symm
    · by_cases hka : k = ahash
      · subst hka
        obtain ⟨ea, hea⟩ := Option.isSome_iff_exists.mp hakey
        rw [hupd ea hea] at he1
        obtain rfl := Option.some_inj.mp he1
        show ea.cumulative_vote = voteSum c votes k
        exact hcum k ea hea
      · rw [hunch k hkh hka] at he1
        exact hcum k e he1

/-- `introduce_branch` preserves the full invariant: the new interior node
inherits exactly the cumulative votes of the containing nodes, whose sum is the
vote-sum of the branch block. -/
theorem branch_good [DecidableEq H] [AddCommMonoid V] {c : Chain H} {b : H}
    {g g1 : VoteGraph H V} {votes : List (H × Nat × V)} {hash : H} {number : Nat}
    {L : List H}
    (hg : GInv c b g)
    (hkeys : ∀ v ∈ votes, (lookupE g.entries v.1).isSome = true)
    (hcum : ∀ k e, lookupE g.entries k = some e → e.cumulative_vote = voteSum c votes k)
    (hnum : number = c.num hash)
    (hdesc : hash = b ∨ b ∈ c.anc hash)
    (hfcn : g.find_containing_nodes hash number = some (some L)) (hLne : L ≠ [])
    (hrun : g.introduce_branch L hash number = some g1) :
    GInv c b g1 ∧ (lookupE g1.entries hash).isSome = true ∧
    (∀ v ∈ votes, (lookupE g1.entries v.1).isSome = true) ∧
    (∀ k e, lookupE g1.entries k = some e → e.cumulative_vote = voteSum c votes k) := by
  subst hnum
  obtain ⟨-, hsome⟩ := find_containing_nodes_spec g hash (c.num hash) _ hfcn
  obtain ⟨hfresh, hLnodup, hLsound, -⟩ := hsome L rfl
  have hLkeys : ∀ d ∈ L, (lookupE g.entries d).isSome = true := by
    intro d hd
    obtain ⟨e, he, -⟩ := hLsound d hd
    rw [he]
    rfl
  obtain ⟨hbase1, hheads1, hkeys1, hunch, htrunc, d0, rest, ed0, e1, hLdef, hed0, he1,
    hnum1, hanc1, hdesc1, hcum1⟩ :=
    introduce_branch_spec g g1 L hash (c.num hash) hrun hLnodup hLne hfresh hLkeys
  have hbne : b ≠ hash := by
    intro hc
    obtain ⟨e0, he0, -, -⟩ := hg.base_entry
    rw [hc, hfresh] at he0
    cases he0
  have hbx : b ∈ c.anc hash := by
    rcases hdesc with hc | hc
    · exact absurd hc.symm hbne
    · exact hc
  have hfacts : ∀ d ∈ L, ∀ ed, lookupE g.entries d = some ed → d ≠ b ∧
      ed.number = c.num d ∧ c.num hash < ed.number ∧
      ed.ancestors[ed.number - c.num hash - 1]? = some hash ∧
      ed.number - c.num hash < ed.ancestors.length := by
    intro d hd ed hed
    obtain ⟨ed2, hed2, hida⟩ := hLsound d hd
    rw [hed] at hed2
    obtain rfl := Option.some_inj.mp hed2
    rw [ida_eq_some_true_iff] at hida
    obtain ⟨hlt, hoff⟩ := hida
    have hdb : d ≠ b := by
      intro hc
      obtain ⟨e0, he0, ha0, -⟩ := hg.base_entry
      rw [hc, he0] at hed
      obtain rfl := Option.some_inj.mp hed
      rw [ha0] at hoff
      simp at hoff
    have henum := hg.entry_number hed
    have hofflt : ed.number - c.num hash - 1 < ed.ancestors.length := by
      by_contra hc
      push_neg at hc
      rw [List.getElem?_eq_none hc] at hoff
      cases hoff
    have hlen2 : ed.number - c.num hash < ed.ancestors.length := by
      by_contra hc
      push_neg at hc
      have hlast : ed.ancestors.getLast? = some hash := by
        rw [List.getLast?_eq_getElem?]
        have heq : ed.ancestors.length - 1 = ed.number - c.num hash - 1 := by omega
        rw [heq]
        exact hoff
      obtain ⟨-, -, -, hlastkey, -⟩ := hg.wf d ed hed hdb
      have := hlastkey hash hlast
      rw [hfresh] at this
      cases this
    exact ⟨hdb, henum, hlt, hoff, hlen2⟩
  have hfirst : ∀ d ∈ L, ∀ ed, lookupE g.entries d = some ed →
      ∃ (j : Nat) (a : H), (c.anc hash)[j]? = some a ∧ ed.ancestors.getLast? = some a ∧
        (lookupE g.entries a).isSome = true ∧
        (∀ (j2 : Nat) (x : H), j2 < j → (c.anc hash)[j2]? = some x →
          lookupE g.entries x = none) := by
    intro d hd ed hed
    obtain ⟨hdb, henum, hlt, hoff, hlen2⟩ := hfacts d hd ed hed
    obtain ⟨-, hne, -, hlastkey, hint⟩ := hg.wf d ed hed hdb
    have hlenpos : 0 < ed.ancestors.length := List.length_pos.mpr hne
    obtain ⟨a, ha⟩ : ∃ a, ed.ancestors.getLast? = some a := by
      rw [List.getLast?_eq_getElem?]
      cases hgp : ed.ancestors[ed.ancestors.length - 1]? with
      | none =>
        rw [List.getElem?_eq_none_iff] at hgp
        omega
      | some a => exact ⟨a, rfl⟩
    have hakey := hlastkey a ha
    have haget : ed.ancestors[ed.ancestors.length - 1]? = some a := by
      rw [← List.getLast?_eq_getElem?]
      exact ha
    have hchain_d : ∀ j, j < ed.ancestors.length → ed.ancestors[j]? = (c.anc d)[j]? :=
      fun j hj => hg.ancestors_getElem hed hdb hj
    have hoffc : (c.anc d)[ed.number - c.num hash - 1]? = some hash := by
      rw [← hchain_d _ (by omega)]
      exact hoff
    have hanch : c.anc hash = (c.anc d).drop (ed.number - c.num hash) := by
      have hdrop := c.anc_getElem (ed.number - c.num hash - 1) d hash hoffc
      rw [hdrop]
      congr 1
      omega
    refine ⟨ed.ancestors.length - 1 - (ed.number - c.num hash), a, ?_, ha, hakey, ?_⟩
    · rw [hanch, List.getElem?_drop]
      have heq : ed.number - c.num hash +
          (ed.ancestors.length - 1 - (ed.number - c.num hash)) = ed.ancestors.length - 1 := by
        omega
      rw [heq]
      rw [hchain_d _ (by omega)] at haget
      exact haget
    · intro j2 x hj2 hx
      rw [hanch, List.getElem?_drop] at hx
      have hxa : ed.ancestors[ed.number - c.num hash + j2]? = some x := by
        rw [hchain_d _ (by omega)]
        exact hx
      have hxint : x ∈ ed.ancestors.dropLast := by
        rw [List.dropLast_eq_take]
        refine List.mem_iff_getElem?.mpr ⟨ed.number - c.num hash + j2, ?_⟩
        rw [List.getElem?_take_of_lt
          (by omega : ed.number - c.num hash + j2 < ed.ancestors.length - 1)]
        exact hxa
      exact hint x hxint
  have hd0L : d0 ∈ L := by
    rw [hLdef]
    exact List.mem_cons_self _ _
  obtain ⟨j0, a0, hja0, hla0, hak0, hmin0⟩ := hfirst d0 hd0L ed0 hed0
  have hanc_same : ∀ d ∈ L, ∀ ed, lookupE g.entries d = some ed →
      ed.ancestors.getLast? = some a0 := by
    intro d hd ed hed
    obtain ⟨j, a, hja, hla, hak, hminj⟩ := hfirst d hd ed hed
    have hjj : j = j0 := by
      rcases Nat.lt_trichotomy j j0 with hlt2 | heq | hgt
      · have hz := hmin0 j a hlt2 hja
        rw [hz] at hak
        cases hak
      · exact heq
      · have hz := hminj j0 a0 hgt hja0
        rw [hz] at hak0
        cases hak0
    subst hjj
    rw [hja] at hja0
    rw [hla]
    exact congrArg some (Option.some_inj.mp hja0)
  have hkey_up : ∀ x, (lookupE g.entries x).isSome = true →
      (lookupE g1.entries x).isSome = true := by
    intro x hx
    rw [isKey_iff_mem_keys] at hx ⊢
    rw [hkeys1]
    exact List.mem_append_left _ hx
  have hnone_up : ∀ x, lookupE g.entries x = none → x ≠ hash →
      lookupE g1.entries x = none := by
    intro x hx hxh
    have hxL : x ∉ L := by
      intro hc
      have := hLkeys x hc
      rw [hx] at this
      cases this
    rw [hunch x hxh hxL]
    exact hx
  have hnoedge : ∀ h2 e, lookupE g.entries h2 = some e → hash ∈ e.ancestors → h2 ∈ L :=
    fresh_not_in_interior hg hfcn
  obtain ⟨hd0b, hnum0, hlt0, hoff0, hlen20⟩ := hfacts d0 hd0L ed0 hed0
  have hchain_d0 : ∀ j, j < ed0.ancestors.length → ed0.ancestors[j]? = (c.anc d0)[j]? :=
    fun j hj => hg.ancestors_getElem hed0 hd0b hj
  have hoffc0 : (c.anc d0)[ed0.number - c.num hash - 1]? = some hash := by
    rw [← hchain_d0 _ (by omega)]
    exact hoff0
  have hanch0 : c.anc hash = (c.anc d0).drop (ed0.number - c.num hash) := by
    have hdrop := c.anc_getElem (ed0.number - c.num hash - 1) d0 hash hoffc0
    rw [hdrop]
    congr 1
    omega
  have hwf0 := hg.wf d0 ed0 hed0 hd0b
  have hpre0 : ed0.ancestors = (c.anc d0).take ed0.ancestors.length := hwf0.2.2.1
  have he1anc : e1.ancestors =
      (c.anc hash).take (ed0.ancestors.length - (ed0.number - c.num hash)) := by
    rw [hanc1, hanch0]
    conv_lhs => rw [hpre0]
    rw [List.drop_take]
  have he1ne : e1.ancestors ≠ [] := by
    rw [hanc1]
    intro hc
    have hlen := congrArg List.length hc
    rw [List.length_drop] at hlen
    simp at hlen
    omega
  have he1last : e1.ancestors.getLast? = some a0 := by
    rw [hanc1,
      getLast?_drop_of_lt _ _ (by omega : ed0.number - c.num hash < ed0.ancestors.length)]
    exact hla0
  have hstep_hash : stepTo g1.entries hash a0 := by
    unfold stepTo ancNodeOf
    rw [he1]
    simp only [Option.some_bind]
    show e1.ancestors.getLast? = some a0
    exact he1last
  have hstepL : ∀ d ∈ L, stepTo g1.entries d hash := by
    intro d hd
    obtain ⟨ed, hed, -, htr⟩ := htrunc d hd
    obtain ⟨hdb, henum, hlt, hoff, hlen2⟩ := hfacts d hd ed hed
    unfold stepTo ancNodeOf
    rw [htr]
    simp only [Option.some_bind]
    show (ed.ancestors.take (ed.number - c.num hash)).getLast? = some hash
    rw [List.getLast?_eq_getElem?, List.length_take]
    have hm : min (ed.number - c.num hash) ed.ancestors.length = ed.number - c.num hash := by
      omega
    rw [hm]
    rw [List.getElem?_take_of_lt
      (by omega : ed.number - c.num hash - 1 < ed.number - c.num hash)]
    exact hoff
  have hreach_up : ∀ x y, Reaches g.entries x y → Reaches g1.entries x y := by
    intro x y hr
    induction hr using Relation.ReflTransGen.head_induction_on with
    | refl => exact Relation.ReflTransGen.refl
    | head hstep htail ih =>
      rename_i p q
      by_cases hpL : p ∈ L
      · obtain ⟨ep, hep, hanp, -, -, -, -⟩ := hg.step_facts hstep
        have hanp2 : ep.ancestors.getLast? = some q := hanp
        rw [hanc_same p hpL ep hep] at hanp2
        obtain rfl := Option.some_inj.mp hanp2
        exact Relation.ReflTransGen.head (hstepL p hpL)
          (Relation.ReflTransGen.head hstep_hash ih)
      · have hpne : p ≠ hash := by
          obtain ⟨ep, hep, -, -, -, -, -⟩ := hg.step_facts hstep
          intro hc
          rw [hc, hfresh] at hep
          cases hep
        have hs1 : stepTo g1.entries p q := by
          unfold stepTo ancNodeOf at hstep ⊢
          rw [hunch p hpne hpL]
          exact hstep
        exact Relation.ReflTransGen.head hs1 ih
  have hg1 : GInv c b g1 := by
    refine ⟨?_, ?_, ?_, ?_, ?_, ?_, ?_⟩
    · rw [hbase1, hg.base_eq]
    · rw [hkeys1, List.nodup_append]
      refine ⟨hg.keys_nodup, List.nodup_singleton _, ?_⟩
      intro x hx hx2
      have hxh : x = hash := List.mem_singleton.mp hx2
      subst hxh
      rw [← isKey_iff_mem_keys, hfresh] at hx
      cases hx
    · obtain ⟨e0, he0, ha0e, hn0⟩ := hg.base_entry
      have hbL : b ∉ L := by
        intro hc
        obtain ⟨hdb, -, -, -, -⟩ := hfacts b hc e0 he0
        exact hdb rfl
      refine ⟨e0, ?_, ha0e, hn0⟩
      rw [hunch b hbne hbL]
      exact he0
    · intro h2 e he2 hb2
      by_cases hh : h2 = hash
      · rw [hh, he1] at he2
        obtain rfl := Option.some_inj.mp he2
        rw [hh]
        refine ⟨hnum1, he1ne, ?_, ?_, ?_⟩
        · rw [he1anc]
          exact take_len_eq _ _
        · intro a ha
          rw [he1last] at ha
          obtain rfl := Option.some_inj.mp ha
          exact hkey_up a0 hak0
        · intro x hx
          rw [hanc1, List.dropLast_eq_take, List.length_drop] at hx
          obtain ⟨j, hj⟩ := List.mem_iff_getElem?.mp hx
          have hjlt : j < ed0.ancestors.length - (ed0.number - c.num hash) - 1 := by
            by_contra hc
            push_neg at hc
            rw [List.getElem?_eq_none] at hj
            · cases hj
            · rw [List.length_take, List.length_drop]
              omega
          rw [List.getElem?_take_of_lt hjlt, List.getElem?_drop] at hj
          have hjlen : ed0.number - c.num hash + j < ed0.ancestors.length := by omega
          have hxint : x ∈ ed0.ancestors.dropLast := by
            rw [List.dropLast_eq_take]
            refine List.mem_iff_getElem?.mpr ⟨ed0.number - c.num hash + j, ?_⟩
            rw [List.getElem?_take_of_lt
              (by omega : ed0.number - c.num hash + j < ed0.ancestors.length - 1)]
            exact hj
          have hxnone := hwf0.2.2.2.2 x hxint
          have hxh : x ≠ hash := by
            intro hc
            have hjc : (c.anc d0)[ed0.number - c.num hash + j]? = some x := by
              rw [← hchain_d0 _ hjlen]
              exact hj
            have h1 := c.num_getElem _ d0 x hjc
            have h2n := c.num_getElem _ d0 hash hoffc0
            rw [hc] at h1
            omega
          exact hnone_up x hxnone hxh
      · by_cases hhL : h2 ∈ L
        · obtain ⟨ed, hed, -, htr⟩ := htrunc h2 hhL
          rw [htr] at he2
          obtain rfl := Option.some_inj.mp he2
          obtain ⟨hdb, henum, hlt, hoff, hlen2⟩ := hfacts h2 hhL ed hed
          refine ⟨henum, ?_, ?_, ?_, ?_⟩
          · show ed.ancestors.take (ed.number - c.num hash) ≠ []
            intro hc
            have hlen := congrArg List.length hc
            rw [List.length_take, List.length_nil] at hlen
            omega
          · show ed.ancestors.take (ed.number - c.num hash) =
              (c.anc h2).take (ed.ancestors.take (ed.number - c.num hash)).length
            have hpre := (hg.wf h2 ed hed hdb).2.2.1
            conv_lhs => rw [hpre]
            rw [List.take_take, List.length_take]
          · intro a ha
            have ha2 : (ed.ancestors.take (ed.number - c.num hash)).getLast? = some a := ha
            rw [List.getLast?_eq_getElem?, List.length_take] at ha2
            have hm : min (ed.number - c.num hash) ed.ancestors.length
                = ed.number - c.num hash := by omega
            rw [hm] at ha2
            rw [List.getElem?_take_of_lt
              (by omega : ed.number - c.num hash - 1 < ed.number - c.num hash)] at ha2
            rw [hoff] at ha2
            obtain rfl := Option.some_inj.mp ha2
            rw [he1]
            rfl
          · intro x hx
            have hx2 : x ∈ (ed.ancestors.take (ed.number - c.num hash)).dropLast := hx
            rw [List.dropLast_eq_take, List.length_take] at hx2
            have hm : min (ed.number - c.num hash) ed.ancestors.length
                = ed.number - c.num hash := by omega
            rw [hm] at hx2
            obtain ⟨j, hj⟩ := List.mem_iff_getElem?.mp hx2
            have hjlt : j < ed.number - c.num hash - 1 := by
              by_contra hc
              push_neg at hc
              rw [List.getElem?_eq_none] at hj
              · cases hj
              · rw [List.length_take, List.length_take]
                omega
            rw [List.getElem?_take_of_lt (by omega : j < ed.number - c.num hash - 1),
              List.getElem?_take_of_lt (by omega : j < ed.number - c.num hash)] at hj
            have hxint : x ∈ ed.ancestors.dropLast := by
              rw [List.dropLast_eq_take]
              refine List.mem_iff_getElem?.mpr ⟨j, ?_⟩
              rw [List.getElem?_take_of_lt (by omega : j < ed.ancestors.length - 1)]
              exact hj
            have hxnone := (hg.wf h2 ed hed hdb).2.2.2.2 x hxint
            have hxh : x ≠ hash := by
              intro hc
              have hjc : ed.ancestors[j]? = (c.anc h2)[j]? :=
                hg.ancestors_getElem hed hdb (by omega)
              rw [hjc] at hj
              have h1 := c.num_getElem j h2 x hj
              have hoffc : (c.anc h2)[ed.number - c.num hash - 1]? = some hash := by
                rw [← hg.ancestors_getElem hed hdb (by omega)]
                exact hoff
              have h2n := c.num_getElem _ h2 hash hoffc
              rw [hc] at h1
              omega
            exact hnone_up x hxnone hxh
        · rw [hunch h2 hh hhL] at he2
          obtain ⟨w1, w2, w3, w4, w5⟩ := hg.wf h2 e he2 hb2
          refine ⟨w1, w2, w3, ?_, ?_⟩
          · intro a ha
            exact hkey_up a (w4 a ha)
          · intro x hx
            have hxh : x ≠ hash := by
              intro hc
              rw [hc] at hx
              exact hhL (hnoedge h2 e he2 (List.dropLast_subset _ hx))
            exact hnone_up x (w5 x hx) hxh
    · rw [hheads1]
      exact hg.heads_nodup
    · intro h2 hh
      rw [hheads1] at hh
      exact hkey_up h2 (hg.heads_sub h2 hh)
    · intro k hk1
      by_cases hkh : k = hash
      · obtain ⟨hd, hhd, hr⟩ := hg.reach d0 (by rw [hed0]; rfl)
        refine ⟨hd, by rw [hheads1]; exact hhd, ?_⟩
        rw [hkh]
        exact Relation.ReflTransGen.tail (hreach_up hd d0 hr) (hstepL d0 hd0L)
      · have hk0 : (lookupE g.entries k).isSome = true := by
          rw [isKey_iff_mem_keys] at hk1 ⊢
          rw [hkeys1] at hk1
          rcases List.mem_append.mp hk1 with h1 | h2
          · exact h1
          · exact absurd (List.mem_singleton.mp h2) hkh
        obtain ⟨hd, hhd, hr⟩ := hg.reach k hk0
        exact ⟨hd, by rw [hheads1]; exact hhd, hreach_up hd k hr⟩
  refine ⟨hg1, by rw [he1]; rfl, ?_, ?_⟩
  · intro v hv
    exact hkey_up v.1 (hkeys v hv)
  · intro k e he2
    by_cases hkh : k = hash
    · rw [hkh, he1] at he2
      obtain rfl := Option.some_inj.mp he2
      rw [hkh]
      rw [hcum1, foldl_add_eq_sum rest (fun dd => cumOf g.entries dd)
        ((0 : V) + ed0.cumulative_vote), zero_add]
      have hsum : (L.map (fun d => cumOf g.entries d)).sum = voteSum c votes hash :=
        branch_cum_eq hg votes hkeys hcum hfresh hbx hLnodup hLsound
          (hg.containing_complete hfcn)
      rw [← hsum, hLdef, List.map_cons, List.sum_cons]
      congr 1
      show ed0.cumulative_vote = ((lookupE g.entries d0).map Entry.cumulative_vote).getD 0
      rw [hed0]
      rfl
    · by_cases hkL : k ∈ L
      · obtain ⟨ed, hed, -, htr⟩ := htrunc k hkL
        rw [htr] at he2
        obtain rfl := Option.some_inj.mp he2
        show ed.cumulative_vote = voteSum c votes k
        exact hcum k ed hed
      · rw [hunch k hkh hkL] at he2
        exact hcum k e he2

/-- The weight walk of `insert` turns a graph that is good for `votes` into a
graph that is good for `votes` extended with the new vote. -/
theorem walk_good [DecidableEq H] [AddCommMonoid V] {c : Chain H} {b : H}
    {g1 : VoteGraph H V} {votes : List (H × Nat × V)} {hash : H} {number : Nat} {vote : V}
    {es2 : EntryMap H V}
    (hg : GInv c b g1)
    (hkeys : ∀ v ∈ votes, (lookupE g1.entries v.1).isSome = true)
    (hcum : ∀ k e, lookupE g1.entries k = some e → e.cumulative_vote = voteSum c votes k)
    (hhash : (lookupE g1.entries hash).isSome = true)
    (hw : cumWalk (g1.entries.length + 1) g1.entries hash vote = some es2) :
    GoodGraph c b (votes ++ [(hash, number, vote)]) { g1 with entries := es2 } := by
  have hshape := cumWalk_shape _ _ _ _ _ hw
  have hkeq := cumWalk_keys _ _ _ _ _ hw
  have hginv := GInv_of_shape hshape hkeq hg
  refine ⟨hginv, ?_, ?_⟩
  · intro v hv
    rcases List.mem_append.mp hv with hv1 | hv2
    · show (lookupE es2 v.1).isSome = true
      rw [← hshape.isSome v.1]
      exact hkeys v hv1
    · have hveq : v = (hash, number, vote) := List.mem_singleton.mp hv2
      subst hveq
      show (lookupE es2 hash).isSome = true
      rw [← hshape.isSome hash]
      exact hhash
  · intro k e2 he2
    have hk1 : (lookupE g1.entries k).isSome = true := by
      rw [hshape.isSome k]
      show (lookupE es2 k).isSome = true
      rw [he2]
      rfl
    obtain ⟨e, he⟩ := Option.isSome_iff_exists.mp hk1
    have hchar := cumWalk_spec _ g1 hash vote es2 hg hhash hw k e he
    have hes2 : lookupE es2 k = lookupE ({ g1 with entries := es2 } : VoteGraph H V).entries k :=
      rfl
    rw [← hes2, hchar] at he2
    have he2eq := Option.some_inj.mp he2
    rw [voteSum_snoc]
    show e2.cumulative_vote =
      voteSum c votes k + (if chainContains c hash k = true then vote else 0)
    by_cases hcc : chainContains c hash k = true
    · rw [if_pos hcc] at he2eq ⊢
      rw [← he2eq]
      show e.cumulative_vote + vote = voteSum c votes k + vote
      rw [hcum k e he]
    · simp only [Bool.not_eq_true] at hcc
      rw [hcc] at he2eq ⊢
      simp only [Bool.false_eq_true, if_false] at he2eq ⊢
      rw [← he2eq, hcum k e he, add_zero]

/-- One `insert` of a valid vote preserves the full invariant, extending the
recorded vote list. -/
theorem insert_good [DecidableEq H] [AddCommMonoid V] {c : Chain H} {b : H}
    {g g2 : VoteGraph H V} {votes : List (H × Nat × V)} {hash : H} {number : Nat} {vote : V}
    (hgood : GoodGraph c b votes g)
    (hnum : number = c.num hash) (hdesc : hash = b ∨ b ∈ c.anc hash)
    (hrun : g.insert hash number vote c.ancestry = some g2) :
    GoodGraph c b (votes ++ [(hash, number, vote)]) g2 := by
  obtain ⟨hg, hkeys, hcum⟩ := hgood
  obtain ⟨g1, es2, hw, hg2, hcase⟩ := insert_split g g2 hash number vote c.ancestry hrun
  subst hg2
  rcases hcase with ⟨hfcn, rfl⟩ | ⟨hfcn, hap⟩ | ⟨L, hfcn, hLne, hib⟩
  · obtain ⟨hiff, -⟩ := find_containing_nodes_spec g1 hash number _ hfcn
    have hhash : (lookupE g1.entries hash).isSome = true := hiff.mp rfl
    exact walk_good hg hkeys hcum hhash hw
  · obtain ⟨hg1, hhash1, hkeys1, hcum1⟩ := append_good hg hkeys hcum hnum hfcn hap
    exact walk_good hg1 hkeys1 hcum1 hhash1 hw
  · obtain ⟨hg1, hhash1, hkeys1, hcum1⟩ :=
      branch_good hg hkeys hcum hnum hdesc hfcn hLne hib
    exact walk_good hg1 hkeys1 hcum1 hhash1 hw

/-- A successful sequence of valid inserts preserves the full invariant,
appending the inserted votes to the recorded vote list. -/
theorem insertSeq_good [DecidableEq H] [AddCommMonoid V] (c : Chain H) (b : H) :
    ∀ (pending votes : List (H × Nat × V)) (g g2 : VoteGraph H V),
      GoodGraph c b votes g →
      (∀ v ∈ pending, v.2.1 = c.num v.1 ∧ (v.1 = b ∨ b ∈ c.anc v.1)) →
      insertSeq c.ancestry pending g = some g2 →
      GoodGraph c b (votes ++ pending) g2 := by
  intro pending
  induction pending with
  | nil =>
    intro votes g g2 hgood hvalid hrun
    simp only [insertSeq, Option.some_inj] at hrun
    subst hrun
    rw [List.append_nil]
    exact hgood
  | cons vt rest ih =>
    intro votes g g2 hgood hvalid hrun
    rw [show insertSeq c.ancestry (vt :: rest) g
        = (g.insert vt.1 vt.2.1 vt.2.2 c.ancestry).bind (insertSeq c.ancestry rest)
      from rfl] at hrun
    cases h1 : g.insert vt.1 vt.2.1 vt.2.2 c.ancestry with
    | none => rw [h1] at hrun; cases hrun
    | some gmid =>
      rw [h1] at hrun
      simp only [Option.some_bind] at hrun
      obtain ⟨hn, hd⟩ := hvalid vt (List.mem_cons_self _ _)
      have hmid : GoodGraph c b (votes ++ [(vt.1, vt.2.1, vt.2.2)]) gmid :=
        insert_good hgood hn hd h1
      have hres := ih (votes ++ [(vt.1, vt.2.1, vt.2.2)]) gmid g2 hmid
        (fun v hv => hvalid v (List.mem_cons_of_mem _ hv)) hrun
      rw [List.append_assoc] at hres
      exact hres

/-- `insert` preserves the heads invariant (for any hash, number, vote and any
chain oracle whatsoever). -/
theorem insert_HInv [DecidableEq H] [Zero V] [Add V] {g g2 : VoteGraph H V} {hash : H}
    {number : Nat} {vote : V} {fn : H → H → Option (List H)}
    (hrun : g.insert hash number vote fn = some g2) (hi : HInv g) : HInv g2 := by
  obtain ⟨g1, es2, hw, hg2, hcase⟩ := insert_split g g2 hash number vote fn hrun
  have hshape := cumWalk_shape _ _ _ _ _ hw
  have h1 : HInv g1 := by
    rcases hcase with ⟨-, rfl⟩ | ⟨hfcn, hap⟩ | ⟨L, hfcn, hLne, hib⟩
    · exact hi
    · -- append case
      obtain ⟨-, hsome⟩ := find_containing_nodes_spec g hash number _ hfcn
      obtain ⟨hfresh, -, -, -⟩ := hsome [] rfl
      have hnh : hash ∉ g.heads := by
        intro hc
        have := hi.heads_sub hash hc
        rw [hfresh] at this
        cases this
      obtain ⟨ancestry, i, ahash, -, -, hakey, -, hane, -, hheads, -, hunch, hpush, hnew⟩ :=
        append_spec g g1 hash number fn hap hfresh hnh
      obtain ⟨ea, hea⟩ := Option.isSome_iff_exists.mp hakey
      have hpush2 := hpush ea hea
      have hkeyne : ∀ x, (lookupE g.entries x).isSome = true → x ≠ hash := by
        intro x hx hc
        rw [hc, hfresh] at hx
        cases hx
      refine ⟨?_, ?_, ?_⟩
      · rw [hheads]
        exact List.nodup_cons.mpr
          ⟨fun hc => hnh (List.mem_of_mem_erase hc), hi.heads_nodup.erase _⟩
      · intro x hx
        rw [hheads] at hx
        rcases List.mem_cons.mp hx with rfl | hx2
        · rw [hnew]
          rfl
        · have hxh : x ∈ g.heads := List.mem_of_mem_erase hx2
          have hxkey := hi.heads_sub x hxh
          have hxne : x ≠ hash := hkeyne x hxkey
          by_cases hxa : x = ahash
          · subst hxa
            exact absurd hx2 (hi.heads_nodup.not_mem_erase)
          · rw [hunch x hxne hxa]
            exact hxkey
      · intro x
        rw [hheads]
        by_cases hxh : x = hash
        · subst hxh
          simp only [List.mem_cons, true_or, true_iff]
          exact ⟨_, hnew, rfl⟩
        · by_cases hxa : x = ahash
          · subst hxa
            constructor
            · intro hc
              rcases List.mem_cons.mp hc with hc2 | hc2
              · exact absurd hc2 hxh
              · exact absurd hc2 (hi.heads_nodup.not_mem_erase)
            · rintro ⟨e, he, hd⟩
              rw [hpush2] at he
              cases he
              simp at hd
          · rw [List.mem_cons]
            have hiff := hi.heads_iff x
            rw [hunch x hxh hxa]
            constructor
            · intro hc
              rcases hc with hc2 | hc2
              · exact absurd hc2 hxh
              · exact hiff.mp (List.mem_of_mem_erase hc2)
            · intro he
              exact Or.inr ((List.mem_erase_of_ne hxa).mpr (hiff.mpr he))
    · -- branch case
      obtain ⟨-, hsome⟩ := find_containing_nodes_spec g hash number _ hfcn
      obtain ⟨hfresh, hLnodup, hLsound, -⟩ := hsome L rfl
      have hLkeys : ∀ d ∈ L, (lookupE g.entries d).isSome = true := by
        intro d hd
        obtain ⟨e, he, -⟩ := hLsound d hd
        rw [he]
        rfl
      obtain ⟨-, hheads, -, hunch, htrunc, d0, rest, ed0, e1, hL, hed0, hnew, -, -, hdesc, -⟩ :=
        introduce_branch_spec g g1 L hash number hib hLnodup hLne hfresh hLkeys
      refine ⟨hheads ▸ hi.heads_nodup, ?_, ?_⟩
      · intro x hx
        rw [hheads] at hx
        have hxkey := hi.heads_sub x hx
        by_cases hxL : x ∈ L
        · obtain ⟨ed, -, -, htr⟩ := htrunc x hxL
          rw [htr]
          rfl
        · have hxne : x ≠ hash := by
            intro hc
            rw [hc, hfresh] at hxkey
            cases hxkey
          rw [hunch x hxne hxL]
          exact hxkey
      · intro x
        rw [hheads]
        by_cases hxh : x = hash
        · subst hxh
          constructor
          · intro hc
            have := hi.heads_sub x hc
            rw [hfresh] at this
            cases this
          · rintro ⟨e, he, hd⟩
            rw [hnew] at he
            cases he
            rw [hdesc] at hd
            exact (hLne hd).elim
        · by_cases hxL : x ∈ L
          · obtain ⟨ed, hed, -, htr⟩ := htrunc x hxL
            rw [hi.heads_iff x]
            constructor
            · rintro ⟨e, he, hd⟩
              rw [hed] at he
              cases he
              exact ⟨_, htr, hd⟩
            · rintro ⟨e, he, hd⟩
              rw [htr] at he
              cases he
              exact ⟨ed, hed, hd⟩
          · rw [hi.heads_iff x, hunch x hxh hxL]
  rw [hg2]
  exact HInv_of_shape hshape h1

/-- The heads invariant holds along any successful insert sequence. -/
theorem insertSeq_HInv [DecidableEq H] [Zero V] [Add V]
    {fn : H → H → Option (List H)} :
    ∀ {votes : List (H × Nat × V)} {g g2 : VoteGraph H V},
      insertSeq fn votes g = some g2 → HInv g → HInv g2 := by
  intro votes
  induction votes with
  | nil =>
    intro g g2 hrun hi
    simp only [insertSeq, Option.some_inj] at hrun
    exact hrun ▸ hi
  | cons v rest ih =>
    intro g g2 hrun hi
    simp only [insertSeq] at hrun
    cases h1 : g.insert v.1 v.2.1 v.2.2 fn with
    | none => rw [h1] at hrun; simp at hrun
    | some gmid =>
      rw [h1] at hrun
      simp only [Option.some_bind] at hrun
      exact ih hrun (insert_HInv h1 hi)

/-- Claim C8: after graph creation and after every sequence of `insert` calls
(against any chain oracle), `heads` is a subset of the entry keys and a hash
is in `heads` exactly when its entry's descendents list is empty. -/
theorem heads_iff_empty_descendents [DecidableEq H] [Zero V] [Add V]
    (fn : H → H → Option (List H)) (votes : List (H × Nat × V)) (b : H) (bn : Nat)
    (g : VoteGraph H V) (hrun : insertSeq fn votes (VoteGraph.new b bn) = some g) :
    (∀ h ∈ g.heads, (lookupE g.entries h).isSome = true) ∧
    (∀ h, h ∈ g.heads ↔ ∃ e, lookupE g.entries h = some e ∧ e.descendents = []) := by
  have hi := insertSeq_HInv hrun (HInv_new b bn)
  exact ⟨hi.heads_sub, hi.heads_iff⟩

/-- Witness for claim C8 at a concrete input: the scenario-1 vote sequence
succeeds and the resulting graph satisfies the heads invariant. -/
theorem heads_iff_empty_descendents_witness :
    insertSeq testChain.ancestry forkVotes (VoteGraph.new 0 1) =
      some (forkGraph.getD (VoteGraph.new 0 1)) ∧
    ((∀ h ∈ (forkGraph.getD (VoteGraph.new 0 1)).heads,
        (lookupE (forkGraph.getD (VoteGraph.new 0 1)).entries h).isSome = true) ∧
      (∀ h, h ∈ (forkGraph.getD (VoteGraph.new 0 1)).heads ↔
        ∃ e, lookupE (forkGraph.getD (VoteGraph.new 0 1)).entries h = some e ∧
          e.descendents = [])) :=
  ⟨rfl,
    heads_iff_empty_descendents testChain.ancestry forkVotes 0 1
      (forkGraph.getD (VoteGraph.new 0 1)) rfl⟩

/-- Claim C3: in `construct_prevote`, when the previous-round estimate `E` and
prevote-GHOST `G` exist, the block whose best chain is requested is chosen
exactly as the spec describes: `E.hash` when there is no primary block;
the primary block when it equals `G`; `E.hash` when its number is at least
`G`'s; otherwise by looking up position `G.number − (primary.number + 1)`
(saturating to 0) in the ancestry from `E.hash` to `G.hash`, falling back to
`E.hash` when the lookup misses or fails with `NotDescendent`. -/
theorem construct_prevote_target_correct [DecidableEq H] (ancestryRes : Option (List H))
    (primary_block : Option (H × Nat)) (E G : H × Nat) :
    find_descendent_of ancestryRes primary_block E G =
      prevote_target_spec ancestryRes primary_block E G := by
  cases primary_block with
  | none => rfl
  | some pb =>
    show (if pb = G then pb.1 else if pb.2 ≥ G.2 then E.1 else _) = _
    by_cases h1 : pb = G
    · simp [find_descendent_of, prevote_target_spec, h1]
    · by_cases h2 : pb.2 ≥ G.2
      · simp [find_descendent_of, prevote_target_spec, h1, h2]
      · cases ancestryRes with
        | none => simp [find_descendent_of, prevote_target_spec, h1, h2]
        | some l =>
          have hoff : (if G.2 < pb.2 + 1 then 0 else G.2 - (pb.2 + 1)) = G.2 - (pb.2 + 1) := by
            split
            · omega
            · rfl
          simp only [find_descendent_of, prevote_target_spec, h1, if_false, h2, hoff]
          cases hl : l[G.2 - (pb.2 + 1)]? with
          | none => simp [hl]
          | some x =>
            by_cases hx : x = pb.1 <;> simp [hl, hx]

/-- Claim C4: `is_completable` returns true iff the current round is
completable, it has a finalized block, the previous round has both an estimate
and a finalized block, and either the previous estimate number is at most the
previous finalized number or it is at most the current finalized number; in
every other configuration of the previous-round state it returns false. -/
theorem is_completable_correct (current_completable : Bool)
    (current_finalized : Option (H × Nat)) (prev : RoundState H) :
    is_completable current_completable current_finalized prev = true ↔
      current_completable = true ∧
      ∃ cf, current_finalized = some cf ∧
        ∃ pe pf, prev.estimate = some pe ∧ prev.finalized = some pf ∧
          (pe.2 ≤ pf.2 ∨ pe.2 ≤ cf.2) := by
  obtain ⟨pg, est, fin, comp⟩ := prev
  cases current_completable <;> cases current_finalized <;>
    cases est <;> cases fin <;>
    simp [is_completable]

/-- Claim C5: inserting a hash that is not yet tracked and whose ancestry the
chain oracle cannot produce does not propagate an `UnknownBlock` error to the
caller: the `unwrap` in `append` panics (modelled as `none`); `insert` returns
`()` in the source and has no error channel at all. -/
theorem insert_unknown_block_panics :
    VoteGraph.insert (V := Nat) (VoteGraph.new (0 : Nat) 1) 1 2 100 (fun _ _ => none) =
      none := by
  rfl

/-- Claim C6: an incoming signed message whose target block is not equal to or
a descendant of the round's base is ignored silently:
`handle_incoming_message` returns `Ok` with the round state and the
primary-block hint unchanged, and the import operations are never consulted. -/
theorem handle_incoming_message_ignores_non_descendent {R E Sig Id : Type} [DecidableEq H]
    [DecidableEq Id] (is_equal_or_descendent_of : H → H → Bool)
    (import_prevote : R → Prevote H → Id → Sig → Except E R)
    (import_precommit : R → Precommit H → Id → Sig → Except E R)
    (primary_voter : Id) (base : H × Nat) (round : R) (primary_block : Option (H × Nat))
    (msg : SignedMessage H Sig Id)
    (hguard : is_equal_or_descendent_of base.1 msg.message.target.1 = false) :
    handle_incoming_message is_equal_or_descendent_of import_prevote import_precommit
        primary_voter base round primary_block msg = .ok (round, primary_block) := by
  unfold handle_incoming_message
  rw [hguard]
  rfl

/-- Witness for claim C6 at a concrete input: with an oracle rejecting every
pair and import operations that would fail if consulted, a prevote message is
ignored and the state `(7, none)` is returned unchanged. -/
theorem handle_incoming_message_ignores_non_descendent_witness :
    (fun (_ _ : Nat) => false) (0 : Nat)
        (Message.target (.prevote ⟨5, 5⟩)).1 = false ∧
    handle_incoming_message
        (fun _ _ => false : Nat → Nat → Bool)
        (fun _ _ _ _ => .error () : Nat → Prevote Nat → Nat → Unit → Except Unit Nat)
        (fun _ _ _ _ => .error () : Nat → Precommit Nat → Nat → Unit → Except Unit Nat)
        3 (0, 1) 7 none ⟨.prevote ⟨5, 5⟩, (), 4⟩ = .ok (7, none) :=
  ⟨rfl,
    handle_incoming_message_ignores_non_descendent (fun _ _ => false)
      (fun _ _ _ _ => .error ()) (fun _ _ _ _ => .error ()) 3 (0, 1) 7 none
      ⟨.prevote ⟨5, 5⟩, (), 4⟩ rfl⟩

/-- Counterexample for claim C7: `in_direct_ancestry` does not return `none`
exactly when `number ≥ e.number`.  On the base-like entry with number 1 and no
ancestors, the query at number 0 has `0 < e.number`, yet the offset 0 is out of
range of the empty ancestor list, so the result is `none`. -/
theorem in_direct_ancestry_none_counterexample :
    Entry.in_direct_ancestry
        ({ number := 1, ancestors := [], descendents := [], cumulative_vote := 0 }
          : Entry Nat Nat) 0 0 =
      none ∧
    ¬ (0 ≥ (1 : Nat)) := by
  constructor
  · rfl
  · omega

/-- Claim C7 (amended): `in_direct_ancestry hash number` returns `some true`
iff `number < e.number` and the `(e.number − number − 1)`-th ancestor equals
`hash`; `some false` iff that offset is in range but the element differs from
`hash`; and `none` iff `number ≥ e.number` or the offset is out of range of
`e.ancestors`. -/
theorem in_direct_ancestry_correct [DecidableEq H] (e : Entry H V) (hash : H)
    (number : Nat) :
    (e.in_direct_ancestry hash number = some true ↔
      number < e.number ∧ e.ancestors[e.number - number - 1]? = some hash) ∧
    (e.in_direct_ancestry hash number = some false ↔
      number < e.number ∧
        ∃ h2, e.ancestors[e.number - number - 1]? = some h2 ∧ h2 ≠ hash) ∧
    (e.in_direct_ancestry hash number = none ↔
      e.number ≤ number ∨ e.ancestors.length ≤ e.number - number - 1) := by
  unfold Entry.in_direct_ancestry
  by_cases hge : number ≥ e.number
  · rw [if_pos hge]
    have h1 : ¬ number < e.number := by omega
    exact ⟨by simp [h1], by simp [h1], by simp [hge]⟩
  · rw [if_neg hge]
    have hlt : number < e.number := by omega
    cases hl : e.ancestors[e.number - number - 1]? with
    | none =>
      have hlen : e.ancestors.length ≤ e.number - number - 1 := by
        by_contra hc
        push_neg at hc
        rw [List.getElem?_eq_getElem hc] at hl
        cases hl
      refine ⟨by simp [hl], by simp [hl], by simp [hl, hlen]⟩
    | some x =>
      have hlen : e.number - number - 1 < e.ancestors.length := by
        by_contra hc
        push_neg at hc
        rw [List.getElem?_eq_none hc] at hl
        cases hl
      by_cases hx : x = hash
      · subst hx
        refine ⟨by simp [hl, hlt], by simp [hl], ?_⟩
        simp only [hl, Option.map_some']
        constructor
        · intro hc
          cases hc
        · intro hc
          omega
      · refine ⟨by simp [hl, hx, hlt], by simp [hl, hx, hlt], ?_⟩
        simp only [hl, Option.map_some']
        constructor
        · intro hc
          cases hc
        · intro hc
          omega

/-- Claim C2: evaluation of the code at the failing input.  Inserting
`(E1,6,100), (F2,7,100), (C,4,100)` (scenario 3 of the vote_graph.rs tests)
makes `introduce_branch` create the vote-node `C` whose ancestor-node is the
base `genesis`; yet `genesis.descendents` still lists the split descendants
`E1` and `F2` and does not contain `C`, so the new node did not become a child
of its prior ancestor-node and the split descendants are still tracked by it. -/
theorem introduce_branch_stale_descendents :
    (branchGraph.map (fun g => (lookupE g.entries 3).map Entry.ancestor_node) =
      some (some (some 0))) ∧
    (branchGraph.map (fun g => (lookupE g.entries 0).map Entry.descendents) =
      some (some [5, 9])) := by
  constructor <;> rfl

/-- Claim C10: `prevote(timer_ready)` returns `Ok(true)` whenever the timer is
ready or the round is completable, even when no prevote message is cast —
because the voter is not active (capability unchanged) or because
`construct_prevote` produced no block (capability set to `No`) — and the run
loop's `Start` and `Proposed` arms move the state to `Prevoted` whenever the
returned bool is true. -/
theorem prevote_returns_true_without_casting {E T : Type} (voting : Voting)
    (timer_ready completable : Bool) (construct_res : Except E (Option (Prevote H)))
    (send_res : Except E Unit) (prevote_timer precommit_timer : T) (proposed : Bool)
    (hgate : (timer_ready || completable) = true)
    (hnocast : voting.is_active = false ∨ construct_res = .ok none) :
    (∃ v2, prevote_step voting timer_ready completable construct_res send_res =
        .ok (true, v2, none) ∧
      (voting.is_active = false → v2 = voting) ∧
      (voting.is_active = true → v2 = .no)) ∧
    start_transition prevote_timer precommit_timer proposed true =
      .prevoted precommit_timer ∧
    proposed_transition prevote_timer precommit_timer true = .prevoted precommit_timer := by
  refine ⟨?_, rfl, rfl⟩
  unfold prevote_step
  rw [hgate]
  rcases hnocast with hv | hc
  · exact ⟨voting, by simp [hv], fun _ => rfl, by simp [hv]⟩
  · cases ha : voting.is_active
    · exact ⟨voting, by simp, fun _ => rfl, by simp [ha]⟩
    · exact ⟨.no, by simp [hc], by simp [ha], fun _ => rfl⟩

/-- Witness for claim C10 at a concrete input: an inactive voter with a ready
timer gets `Ok(true)` with nothing sent, and the `Start` transition on a true
prevote result is `Prevoted`. -/
theorem prevote_returns_true_without_casting_witness :
    ((true || false) = true ∧ (Voting.no.is_active = false ∨
      (Except.ok none : Except Unit (Option (Prevote Nat))) = .ok none)) ∧
    (∃ v2, prevote_step Voting.no true false
        (.ok (some ⟨5, 5⟩) : Except Unit (Option (Prevote Nat))) (.ok ()) =
          .ok (true, v2, none) ∧
      (Voting.no.is_active = false → v2 = Voting.no) ∧
      (Voting.no.is_active = true → v2 = .no)) ∧
    start_transition (0 : Nat) 1 false true = .prevoted 1 ∧
    proposed_transition (0 : Nat) 1 true = .prevoted 1 :=
  ⟨⟨rfl, Or.inl rfl⟩,
    prevote_returns_true_without_casting Voting.no true false (.ok (some ⟨5, 5⟩)) (.ok ())
      0 1 false rfl (Or.inl rfl)⟩

/-- **C1.** For every chain oracle and every successful sequence of
`VoteGraph::insert((hᵢ, nᵢ, wᵢ))` calls on a fresh graph created with base `b`
(each inserted block known to the chain with its true number and equal to or a
descendant of `b`), the `cumulative_vote` of every entry of the resulting
graph equals the monoid-sum of all weights `wᵢ` such that `hᵢ`'s chain
contains the entry's block. -/
theorem cumulative_vote_eq_vote_sum [DecidableEq H] [AddCommMonoid V] (c : Chain H)
    (b : H) (votes : List (H × Nat × V)) (g : VoteGraph H V)
    (hvalid : ∀ v ∈ votes, v.2.1 = c.num v.1 ∧ (v.1 = b ∨ b ∈ c.anc v.1))
    (hrun : insertSeq c.ancestry votes (VoteGraph.new b (c.num b)) = some g) :
    ∀ k, (lookupE g.entries k).isSome = true → cumOf g.entries k = voteSum c votes k := by
  have hgood := insertSeq_good c b votes [] (VoteGraph.new b (c.num b)) g
    (GoodGraph_new c b) hvalid hrun
  rw [List.nil_append] at hgood
  obtain ⟨-, -, hcum⟩ := hgood
  intro k hk
  obtain ⟨e, he⟩ := Option.isSome_iff_exists.mp hk
  show ((lookupE g.entries k).map Entry.cumulative_vote).getD 0 = voteSum c votes k
  rw [he]
  show e.cumulative_vote = voteSum c votes k
  exact hcum k e he

/-- Witness for C1: test scenario 1 of vote_graph.rs (`graph_fork_not_at_node`);
the entry at block A holds exactly the vote-sum of the three votes on A, E1
and F2. -/
theorem cumulative_vote_eq_vote_sum_witness :
    cumOf (forkGraph.getD (VoteGraph.new 0 1)).entries 1 = voteSum testChain forkVotes 1 :=
  cumulative_vote_eq_vote_sum testChain 0 forkVotes (forkGraph.getD (VoteGraph.new 0 1))
    (by decide) (by rfl) 1 (by rfl)

/-- **C9.** Inserting the same multiset of valid votes into a fresh vote graph
in two different orders yields identical cumulative votes: every block tracked
as a vote-node in both resulting graphs has the same `cumulative_vote` (the
sets of vote-nodes themselves may differ between orders). -/
theorem insert_order_independent [DecidableEq H] [AddCommMonoid V] (c : Chain H)
    (b : H) (votes1 votes2 : List (H × Nat × V)) (g1 g2 : VoteGraph H V)
    (hperm : votes1.Perm votes2)
    (hvalid : ∀ v ∈ votes1, v.2.1 = c.num v.1 ∧ (v.1 = b ∨ b ∈ c.anc v.1))
    (hrun1 : insertSeq c.ancestry votes1 (VoteGraph.new b (c.num b)) = some g1)
    (hrun2 : insertSeq c.ancestry votes2 (VoteGraph.new b (c.num b)) = some g2) :
    ∀ k, (lookupE g1.entries k).isSome = true → (lookupE g2.entries k).isSome = true →
      cumOf g1.entries k = cumOf g2.entries k := by
  have hvalid2 : ∀ v ∈ votes2, v.2.1 = c.num v.1 ∧ (v.1 = b ∨ b ∈ c.anc v.1) :=
    fun v hv => hvalid v (hperm.mem_iff.mpr hv)
  have hgood1 := insertSeq_good c b votes1 [] (VoteGraph.new b (c.num b)) g1
    (GoodGraph_new c b) hvalid hrun1
  have hgood2 := insertSeq_good c b votes2 [] (VoteGraph.new b (c.num b)) g2
    (GoodGraph_new c b) hvalid2 hrun2
  rw [List.nil_append] at hgood1 hgood2
  obtain ⟨-, -, hcum1⟩ := hgood1
  obtain ⟨-, -, hcum2⟩ := hgood2
  intro k hk1 hk2
  obtain ⟨e1, he1⟩ := Option.isSome_iff_exists.mp hk1
  obtain ⟨e2, he2⟩ := Option.isSome_iff_exists.mp hk2
  show ((lookupE g1.entries k).map Entry.cumulative_vote).getD 0 =
    ((lookupE g2.entries k).map Entry.cumulative_vote).getD 0
  rw [he1, he2]
  show e1.cumulative_vote = e2.cumulative_vote
  rw [hcum1 k e1 he1, hcum2 k e2 he2]
  exact voteSum_perm c hperm k

/-- Witness for C9: the two insertion orders of test scenarios 2 and 3 of
vote_graph.rs (C before / after E1 and F2) give block C the same cumulative
vote. -/
theorem insert_order_independent_witness :
    cumOf (branchGraph.getD (VoteGraph.new 0 1)).entries 3 =
      cumOf (forkAtNodeGraph.getD (VoteGraph.new 0 1)).entries 3 :=
  insert_order_independent testChain 0 branchVotes forkAtNodeVotes
    (branchGraph.getD (VoteGraph.new 0 1)) (forkAtNodeGraph.getD (VoteGraph.new 0 1))
    (by decide) (by decide) (by rfl) (by rfl) 3 (by rfl) (by rfl)

end Grandpa
